import Mathlib

/-!
Verification development for the MCDA scoring engine of the repository
(file backend/app/mcda_scoring.py).  The Python module is shallowly
embedded below: Python dicts with string keys become association lists,
JSON-like dynamic values become the inductive type JVal, Python floats
are idealised as exact rationals (an unnormalised pair of an integer
numerator and a positive natural denominator, so that every operation
is kernel-computable), and every Python exception that the module can
actually raise is modelled with an explicit error monad (Except PyErr).
IEEE-754 rounding is not modelled; the one float-specific behaviour
kept is the OverflowError raised by float(n) on integers beyond the
double range, because it is observable as an uncaught exception.
Unicode case folding and whitespace are modelled at ASCII fidelity.
-/

/-- Exact rational standing in for a Python float value: numerator and a
positive denominator, not necessarily in lowest terms (kept unnormalised
so that arithmetic is definitionally computable). -/
structure PyRat where
  num : ℤ
  den : ℕ+
deriving DecidableEq

namespace PyRat

/-- Embeds an integer, as float(n) does for in-range n. -/
def ofInt (n : ℤ) : PyRat := ⟨n, 1⟩

/-- Addition of exact rationals (cross multiplication). -/
def add (a b : PyRat) : PyRat := ⟨a.num * (b.den : ℤ) + b.num * (a.den : ℤ), a.den * b.den⟩

/-- Multiplication of exact rationals. -/
def mul (a b : PyRat) : PyRat := ⟨a.num * b.num, a.den * b.den⟩

/-- Power with natural exponent, as the Python ** operator on these values. -/
def pow (a : PyRat) : ℕ → PyRat
  | 0 => ofInt 1
  | n + 1 => mul a (pow a n)

/-- Less-or-equal on values (cross multiplication; denominators are positive). -/
def le (a b : PyRat) : Prop := a.num * (b.den : ℤ) ≤ b.num * (a.den : ℤ)

/-- Strict order on values. -/
def lt (a b : PyRat) : Prop := a.num * (b.den : ℤ) < b.num * (a.den : ℤ)

instance : DecidableRel le := fun a b =>
  inferInstanceAs (Decidable (a.num * (b.den : ℤ) ≤ b.num * (a.den : ℤ)))

instance : DecidableRel lt := fun a b =>
  inferInstanceAs (Decidable (a.num * (b.den : ℤ) < b.num * (a.den : ℤ)))

/-- Boolean less-or-equal, used inside the embedded code. -/
def leb (a b : PyRat) : Bool := decide (le a b)

/-- Boolean strict order, used inside the embedded code. -/
def ltb (a b : PyRat) : Bool := decide (lt a b)

/-- Boolean value equality (Python == on numbers): cross multiplication. -/
def beq (a b : PyRat) : Bool := a.num * (b.den : ℤ) == b.num * (a.den : ℤ)

/-- The rational value represented. -/
def toRat (a : PyRat) : ℚ := (a.num : ℚ) / ((a.den : ℕ) : ℚ)

theorem den_cast_pos (a : PyRat) : (0 : ℚ) < ((a.den : ℕ) : ℚ) := by
  exact_mod_cast a.den.pos

theorem toRat_le_iff {a b : PyRat} : a.le b ↔ a.toRat ≤ b.toRat := by
  unfold le toRat
  rw [div_le_div_iff (den_cast_pos a) (den_cast_pos b)]
  constructor
  · intro h; exact_mod_cast h
  · intro h; exact_mod_cast h

theorem toRat_lt_iff {a b : PyRat} : a.lt b ↔ a.toRat < b.toRat := by
  unfold lt toRat
  rw [div_lt_div_iff (den_cast_pos a) (den_cast_pos b)]
  constructor
  · intro h; exact_mod_cast h
  · intro h; exact_mod_cast h

theorem beq_iff_toRat_eq {a b : PyRat} : a.beq b = true ↔ a.toRat = b.toRat := by
  unfold beq toRat
  rw [div_eq_div_iff (ne_of_gt (den_cast_pos a)) (ne_of_gt (den_cast_pos b))]
  constructor
  · intro h; exact_mod_cast beq_iff_eq.mp h
  · intro h; exact beq_iff_eq.mpr (by exact_mod_cast h)

theorem toRat_ofInt (n : ℤ) : (ofInt n).toRat = (n : ℚ) := by
  simp [ofInt, toRat]

theorem toRat_add (a b : PyRat) : (a.add b).toRat = a.toRat + b.toRat := by
  unfold add toRat
  have ha := ne_of_gt (den_cast_pos a)
  have hb := ne_of_gt (den_cast_pos b)
  field_simp

theorem toRat_mul (a b : PyRat) : (a.mul b).toRat = a.toRat * b.toRat := by
  unfold mul toRat
  have ha := ne_of_gt (den_cast_pos a)
  have hb := ne_of_gt (den_cast_pos b)
  field_simp

theorem toRat_pow (a : PyRat) (n : ℕ) : (a.pow n).toRat = a.toRat ^ n := by
  induction n with
  | zero => simp [pow, toRat_ofInt]
  | succ k ih => rw [pow, toRat_mul, ih, pow_succ]; ring

end PyRat

/-- Result of converting a Python value to a float for range comparison:
a finite exact value, an infinity (e.g. float of the string "inf"), or nan. -/
inductive PyFloat where
  | finite (q : PyRat)
  | inf
  | ninf
  | nan
deriving DecidableEq

/-- Comparison x < m used by the range filter (m is a finite bound).
IEEE semantics: inf is bigger than every bound, -inf smaller, and every
comparison with nan is false. -/
def PyFloat.ltb (x : PyFloat) (m : PyRat) : Bool :=
  match x with
  | .finite q => q.ltb m
  | .inf => false
  | .ninf => true
  | .nan => false

/-- Comparison x > m used by the range filter. -/
def PyFloat.gtb (x : PyFloat) (m : PyRat) : Bool :=
  match x with
  | .finite q => m.ltb q
  | .inf => true
  | .ninf => false
  | .nan => false

/-- Dynamic JSON-like Python value, the shape of item records and of the
dynamic parts of the filter config. -/
inductive JVal where
  | null
  | bool (b : Bool)
  | int (n : ℤ)
  | float (q : PyRat)
  | str (s : String)
  | arr (elems : List JVal)
  | obj (fields : List (String × JVal))

/-- The uncaught exceptions the embedded module can raise. -/
inductive PyErr where
  | indexError
  | typeError
  | attributeError
  | overflowError
deriving DecidableEq

/-- Python str.split(".") on the character list (nonempty separator). -/
def splitDotCh : List Char → List (List Char)
  | [] => [[]]
  | c :: rest =>
      match splitDotCh rest with
      | [] => if c = '.' then [[], []] else [[c]]
      | h :: t => if c = '.' then [] :: h :: t else (c :: h) :: t

/-- Python path.split(".") producing strings. -/
def strSplitDot (s : String) : List String := (splitDotCh s.data).map (fun l => ⟨l⟩)

/-- The ASCII whitespace characters of the Python str.strip default set
and of the regex class backslash-s (space, tab, newline, return, vertical
tab, form feed). -/
def isPyWs (c : Char) : Bool :=
  c = ' ' || c = '\t' || c = '\n' || c = '\r' || c = '\x0b' || c = '\x0c'

/-- ASCII lower-casing of one character (model of Python str.lower). -/
def charLower (c : Char) : Char :=
  if 65 ≤ c.toNat && c.toNat ≤ 90 then Char.ofNat (c.toNat + 32) else c

/-- Python str.lower (ASCII fidelity). -/
def strLower (s : String) : String := ⟨s.data.map charLower⟩

/-- Python str.strip() with the default whitespace set. -/
def pyStrip (s : String) : String :=
  ⟨((s.data.dropWhile isPyWs).reverse.dropWhile isPyWs).reverse⟩

/-- Python sep.join(parts). -/
def joinSep (sep : String) : List String → String
  | [] => ""
  | [x] => x
  | x :: y :: rest => x ++ sep ++ joinSep sep (y :: rest)

/-- Python substring containment (needle in haystack) on character lists. -/
def isSubCh (n : List Char) : List Char → Bool
  | [] => n.isEmpty
  | c :: t => n.isPrefixOf (c :: t) || isSubCh n t

/-- Python substring containment on strings. -/
def strContains (needle hay : String) : Bool := isSubCh needle.data hay.data

/-- Python startswith on strings. -/
def strStartsWith (s pre : String) : Bool := pre.data.isPrefixOf s.data

/-- Decimal digits of the fractional part num/den (den positive), at most
fuel digits, stopping at an exact remainder of zero, so trailing zeros are
never produced.  Model of the fractional digits printed by str(float); the
scientific notation Python uses for very large or very small magnitudes is
not modelled (it is never reached by the scoring data of interest). -/
def fracDigits (den : ℕ) : ℕ → ℕ → List Char
  | 0, _ => []
  | _, 0 => []
  | fuel + 1, r =>
      let r10 := r * 10
      let d := r10 / den
      Char.ofNat (48 + d) :: fracDigits den fuel (r10 % den)

/-- Model of Python str(x) for a float value x. -/
def floatStr (q : PyRat) : String :=
  let sign : String := if q.num < 0 then "-" else ""
  let a := q.num.natAbs
  let d := (q.den : ℕ)
  if a % d = 0 then sign ++ Nat.repr (a / d) ++ ".0"
  else sign ++ Nat.repr (a / d) ++ "." ++ (⟨fracDigits d 40 (a % d)⟩ : String)

/-- Whether the string contains the character. -/
def strHasCh (c : Char) (s : String) : Bool := s.data.any (fun x => x == c)

/-- Escapes one character inside a Python repr string literal with quote
character q (the common escapes; the hexadecimal escapes Python uses for
other non-printable characters are not modelled). -/
def reprEsc (q c : Char) : List Char :=
  if c = '\\' then ['\\', '\\']
  else if c = q then ['\\', q]
  else if c = '\n' then ['\\', 'n']
  else if c = '\r' then ['\\', 'r']
  else if c = '\t' then ['\\', 't']
  else [c]

/-- Model of Python repr(s) for a string s: single quotes, switching to
double quotes when the text has a single quote and no double quote. -/
def pyReprStr (s : String) : String :=
  let sq : Char := Char.ofNat 39
  let q : Char := if strHasCh sq s && !strHasCh '"' s then '"' else sq
  ⟨q :: s.data.foldr (fun c acc => reprEsc q c ++ acc) [q]⟩

mutual

/-- Model of Python repr(v) for a dynamic value. -/
def pyRepr : JVal → String
  | .null => "None"
  | .bool b => if b then "True" else "False"
  | .int n => n.repr
  | .float q => floatStr q
  | .str s => pyReprStr s
  | .arr xs => "[" ++ joinSep ", " (pyReprL xs) ++ "]"
  | .obj fs => "\x7b" ++ joinSep ", " (pyReprF fs) ++ "\x7d"

/-- Repr of the elements of a list value. -/
def pyReprL : List JVal → List String
  | [] => []
  | x :: xs => pyRepr x :: pyReprL xs

/-- Repr of the fields of a dict value. -/
def pyReprF : List (String × JVal) → List String
  | [] => []
  | (k, v) :: fs => (pyReprStr k ++ ": " ++ pyRepr v) :: pyReprF fs

end

/-- Model of Python str(v): identity on strings, repr elsewhere. -/
def pyStr : JVal → String
  | .str s => s
  | v => pyRepr v

/-- The normalize helper of the module: empty string for None, else
str(value).strip().lower().  (Named pyNormalize here because the root name
normalize is taken by the ambient library.) -/
def pyNormalize (v : JVal) : String :=
  match v with
  | .null => ""
  | v => strLower (pyStrip (pyStr v))

/-- Normalize applied to a value already known to be a string (the
selection-order entries are typed as strings). -/
def normStr (s : String) : String := strLower (pyStrip s)

/-- Python truthiness of a dynamic value. -/
def pyTruthy : JVal → Bool
  | .null => false
  | .bool b => b
  | .int n => n != 0
  | .float q => q.num != 0
  | .str s => s != ""
  | .arr xs => !xs.isEmpty
  | .obj fs => !fs.isEmpty

/-- The numeric value of a Python bool, int or float, if the value is one
(Python compares these three kinds by numeric value). -/
def asNum : JVal → Option PyRat
  | .bool b => some (PyRat.ofInt (if b then 1 else 0))
  | .int n => some (PyRat.ofInt n)
  | .float q => some q
  | _ => none

/-- First-match lookup in a dict field list (Python dict lookup compares
the stored key with the given one; keys here are strings). -/
def lookupField : List (String × JVal) → String → Option JVal
  | [], _ => none
  | (k, v) :: rest, key => if k == key then some v else lookupField rest key

mutual

/-- Model of Python == on dynamic values: numbers by value across bool,
int and float; strings, lists elementwise, dicts by key lookup with equal
size (dict keys are unique in every value coming from Python, which makes
the one-sided field check complete). -/
def pyEq : JVal → JVal → Bool
  | .null, .null => true
  | .str a, .str b => a == b
  | .arr xs, .arr ys => (xs.length == ys.length) && pyEqAll xs ys
  | .obj xs, .obj ys => (xs.length == ys.length) && pyEqFields xs ys
  | a, b =>
      match asNum a, asNum b with
      | some x, some y => x.beq y
      | _, _ => false

/-- Elementwise equality of list values. -/
def pyEqAll : List JVal → List JVal → Bool
  | [], [] => true
  | x :: xs, y :: ys => pyEq x y && pyEqAll xs ys
  | _, _ => false

/-- Every field of the first dict is present in the second with an equal
value. -/
def pyEqFields : List (String × JVal) → List (String × JVal) → Bool
  | [], _ => true
  | (k, v) :: rest, ys =>
      (match lookupField ys k with
       | some w => pyEq v w
       | none => false) && pyEqFields rest ys

end

/-- Whether the value is hashable in Python (lists and dicts are not). -/
def hashableJ : JVal → Bool
  | .arr _ => false
  | .obj _ => false
  | _ => true

/-- Python dict.get on a string-keyed dict with the default None
(a missing key and a stored None are both returned as null, exactly as
dict.get collapses them for this module). -/
def objGet (fs : List (String × JVal)) (k : String) : JVal :=
  match lookupField fs k with
  | some v => v
  | none => JVal.null

/-- Python value.get(k) on a dynamic value: attribute error when the value
is not a dict. -/
def vGet (v : JVal) (k : String) : Except PyErr JVal :=
  match v with
  | .obj fs => .ok (objGet fs k)
  | _ => .error .attributeError

/-- Lookup in a dict keyed by dynamic values: the stored key is compared
with the given one by Python ==. -/
def jdGet {α : Type} (m : List (JVal × α)) (k : JVal) : Option α :=
  match m with
  | [] => none
  | (k0, v0) :: rest => if pyEq k0 k then some v0 else jdGet rest k

/-- Insertion into a dict keyed by dynamic values: the first matching entry
keeps its stored key and has its value replaced; otherwise the pair is
appended, as CPython dicts do. -/
def jdSet {α : Type} (m : List (JVal × α)) (k : JVal) (v : α) : List (JVal × α) :=
  match m with
  | [] => [(k, v)]
  | (k0, v0) :: rest => if pyEq k0 k then (k0, v) :: rest else (k0, v0) :: jdSet rest k v

/-- Lookup with a dynamic key in a string-keyed dict, raising TypeError on
an unhashable key, as Python dict.get does. -/
def sdGetH {α : Type} (m : List (String × α)) (k : JVal) : Except PyErr (Option α) :=
  if hashableJ k then
    .ok (match m.find? (fun e => pyEq (.str e.1) k) with
         | some e => some e.2
         | none => none)
  else .error .typeError

/-- Plain lookup with a string key in a string-keyed dict. -/
def sdGet {α : Type} (m : List (String × α)) (k : String) : Option α :=
  match m with
  | [] => none
  | (k0, v0) :: rest => if k0 == k then some v0 else sdGet rest k

/-- Assignment d[k] = v on a string-keyed dict: replaces the value of the
first matching entry in place, else appends. -/
def sdSet (m : List (String × JVal)) (k : String) (v : JVal) : List (String × JVal) :=
  match m with
  | [] => [(k, v)]
  | (k0, v0) :: rest => if k0 == k then (k0, v) :: rest else (k0, v0) :: sdSet rest k v

/-- Assignment on a string-to-rational dict (the token weight table). -/
def wdSet (m : List (String × PyRat)) (k : String) (v : PyRat) : List (String × PyRat) :=
  match m with
  | [] => [(k, v)]
  | (k0, v0) :: rest => if k0 == k then (k0, v) :: rest else (k0, v0) :: wdSet rest k v

/-- Membership of a dynamic value in a Python set given as a list, raising
TypeError for an unhashable probe (stored element compared with the given
one). -/
def jMemH (l : List JVal) (k : JVal) : Except PyErr Bool :=
  if hashableJ k then .ok (l.any (fun x => pyEq x k)) else .error .typeError

/-- Membership of a dynamic value in a Python list (no hashing involved). -/
def pyMemList (l : List JVal) (k : JVal) : Bool := l.any (fun x => pyEq x k)

/-- Python iteration over a dynamic value: lists yield elements, strings
yield characters, dicts yield their keys; every other value raises
TypeError. -/
def pyIterate : JVal → Except PyErr (List JVal)
  | .arr xs => .ok xs
  | .str s => .ok (s.data.map (fun c => .str ⟨[c]⟩))
  | .obj fs => .ok (fs.map (fun e => .str e.1))
  | _ => .error .typeError

/-- The pattern (value or []) then iterate, used for config lists. -/
def iterOrEmpty (v : JVal) : Except PyErr (List JVal) :=
  if pyTruthy v then pyIterate v else .ok []

/-- Set insertion modelled on an insertion-ordered list (Python set.add;
iteration order of a Python set is arbitrary, and every fold the module
performs over a set is order-independent, so insertion order is a faithful
choice). -/
def setAdd (l : List String) (t : String) : List String :=
  if l.contains t then l else l ++ [t]

/-- The character class of the mis-escaped bracket regex.  The source
writes the pattern inside a raw string as (.+)backslash backslash[(
backslash backslash d+)backslash backslash]Dollar, so the regex engine
sees group (.+), a literal backslash, then the class holding the five
characters open-paren, backslash, d, plus, close-paren, then the end
anchor — not the intended bracket-index syntax. -/
def brokenClassChar (c : Char) : Bool :=
  c = '(' || c = '\\' || c = 'd' || c = '+' || c = ')'

/-- Whether the mis-escaped pattern matches the whole character list:
a nonempty newline-free prefix, a literal backslash, one class character. -/
def brokenTailMatch (l : List Char) : Bool :=
  match l.reverse with
  | c :: '\\' :: p => brokenClassChar c && !p.isEmpty && p.all (fun x => x != '\n')
  | _ => false

/-- Whether re.match of the mis-escaped pattern succeeds on the segment
(the Dollar anchor also accepts a position before one trailing newline). -/
def brokenBracketMatch (seg : String) : Bool :=
  brokenTailMatch seg.data ||
    (match seg.data.reverse with
     | '\n' :: rest => brokenTailMatch rest.reverse
     | _ => false)

/-- The loop of resolve_path over the dot-split segments.  On a match of
the mis-escaped pattern the source reads match.group(2), but the pattern
has a single group, so Python raises IndexError (no such group); on every
ordinary segment a list value returns None, a dict value is indexed by
the raw segment text, and any other value returns None. -/
def resolveSegs : JVal → List String → Except PyErr JVal
  | v, [] => .ok v
  | v, seg :: rest =>
      match v with
      | .null => .ok .null
      | .arr _ => if brokenBracketMatch seg then .error .indexError else .ok .null
      | .obj fs =>
          if brokenBracketMatch seg then .error .indexError
          else resolveSegs (objGet fs seg) rest
      | _ => .ok .null

/-- The resolve_path function of the module: falsy path returns None, a
truthy non-string path raises AttributeError at path.split, else the
segment loop runs. -/
def resolve_path (data : JVal) (path : JVal) : Except PyErr JVal :=
  if !pyTruthy path then .ok .null
  else
    match path with
    | .str p => resolveSegs data (strSplitDot p)
    | _ => .error .attributeError

/-- The least natural number at which float(n) on an int raises
OverflowError: the binary64 round-to-nearest overflow cutoff
2 ^ 1024 - 2 ^ 970, spelled as a literal so the kernel can compute with
it; the defining equality is proved just below. -/
def ovfNum : ℕ := 179769313486231580793728971405303415079934132710037826936173778980444968292764750946649017977587207096330286416692887910946555547851940402630657488671505820681908902000708383676273854845817711531764475730270069855571366959622842914819860834936475292719074168444365510704342711559699508093042880177904174497792

theorem ovfNum_eq : ovfNum = 2 ^ 1024 - 2 ^ 970 := by norm_num [ovfNum]

/-- ASCII digit test. -/
def isDigitCh (c : Char) : Bool := 48 ≤ c.toNat && c.toNat ≤ 57

/-- Numeric value of an ASCII digit. -/
def digitVal (c : Char) : ℕ := c.toNat - 48

/-- Scans a Python digit group: digits with single underscores allowed
between digits only; a misplaced underscore fails the whole literal. -/
def takeDigitsGo : ℕ → ℕ → List Char → Option (ℕ × ℕ × List Char)
  | acc, cnt, [] => some (acc, cnt, [])
  | acc, cnt, c :: rest =>
      if isDigitCh c then takeDigitsGo (acc * 10 + digitVal c) (cnt + 1) rest
      else if c = '_' then
        match rest with
        | c2 :: r2 =>
            if isDigitCh c2 then takeDigitsGo (acc * 10 + digitVal c2) (cnt + 1) r2 else none
        | [] => none
      else some (acc, cnt, c :: rest)

/-- A digit group must start with a digit; returns its value, the digit
count, and the rest of the input. -/
def takeDigitsU : List Char → Option (ℕ × ℕ × List Char)
  | [] => none
  | c :: rest => if isDigitCh c then takeDigitsGo (digitVal c) 1 rest else none

/-- Exponent digits after an optional sign; must exhaust the input. -/
def expDigits (sg : ℤ) (l : List Char) : Option ℤ :=
  match takeDigitsU l with
  | some (d, _, []) => some (sg * (d : ℤ))
  | _ => none

/-- Optional exponent suffix of a float literal; empty input means
exponent zero, anything else must be a full e-or-E exponent. -/
def parseExpPart : List Char → Option ℤ
  | [] => some 0
  | c :: rest =>
      if c = 'e' || c = 'E' then
        match rest with
        | '+' :: r2 => expDigits 1 r2
        | '-' :: r2 => expDigits (-1) r2
        | r2 => expDigits 1 r2
      else none

/-- Positive power of ten as a positive natural. -/
def pnatPow10 (m : ℕ) : ℕ+ := ⟨10 ^ m, pow_pos (by norm_num) m⟩

/-- Sign application and binary64 overflow of a parsed literal value:
magnitudes at or beyond the cutoff become the infinities, as float() on a
string never raises OverflowError. -/
def finalizeFloat (neg : Bool) (x : PyRat) : PyFloat :=
  let v : PyRat := if neg then ⟨-x.num, x.den⟩ else x
  if ovfNum * ((v.den : ℕ)) ≤ v.num.natAbs then (if v.num < 0 then .ninf else .inf)
  else .finite v

/-- Builds the exact value mant times ten to (e - fcnt) of a parsed float
literal.  Decimal exponents of magnitude beyond 2000 are clamped (to the
infinities above, to exact zero below), an idealisation of binary64
overflow and underflow that is exact for every literal whose value lies
anywhere near the double range. -/
def assembleFloat (neg : Bool) (ipart fpart fcnt : ℕ) (e : ℤ) : PyFloat :=
  let mant : ℕ := ipart * 10 ^ fcnt + fpart
  if mant = 0 then .finite ⟨0, 1⟩
  else
    let k : ℤ := e - (fcnt : ℤ)
    if 0 ≤ k then
      if 2000 < k then (if neg then .ninf else .inf)
      else finalizeFloat neg ⟨(mant : ℤ) * (10 : ℤ) ^ k.toNat, 1⟩
    else
      if 2000 < -k then .finite ⟨0, 1⟩
      else finalizeFloat neg ⟨(mant : ℤ), pnatPow10 (-k).toNat⟩

/-- Body of the float literal after the optional sign: the named values
inf, infinity and nan case-insensitively, or a numeric literal of the
forms digits[.digits][exp] or .digits[exp]. -/
def parseSigned (neg : Bool) (l : List Char) : Option PyFloat :=
  let lw := l.map charLower
  if lw == "inf".data || lw == "infinity".data then some (if neg then .ninf else .inf)
  else if lw == "nan".data then some .nan
  else
    match l with
    | '.' :: rest =>
        match takeDigitsU rest with
        | some (f, fc, r2) =>
            match parseExpPart r2 with
            | some e => some (assembleFloat neg 0 f fc e)
            | none => none
        | none => none
    | _ =>
        match takeDigitsU l with
        | some (i, _, r) =>
            match r with
            | '.' :: r2 =>
                match takeDigitsU r2 with
                | some (f, fc, r3) =>
                    match parseExpPart r3 with
                    | some e => some (assembleFloat neg i f fc e)
                    | none => none
                | none =>
                    match parseExpPart r2 with
                    | some e => some (assembleFloat neg i 0 0 e)
                    | none => none
            | _ =>
                match parseExpPart r with
                | some e => some (assembleFloat neg i 0 0 e)
                | none => none
        | none => none

/-- Model of Python float(s) on a string: whitespace stripped, optional
sign, then the literal body; None means ValueError. -/
def pyParseFloat (s : String) : Option PyFloat :=
  let cs := ((s.data.dropWhile isPyWs).reverse.dropWhile isPyWs).reverse
  match cs with
  | '+' :: r => parseSigned false r
  | '-' :: r => parseSigned true r
  | r => parseSigned false r

/-- Model of float(value) as used by the range matcher inside
try/except (TypeError, ValueError): the caught conversions come back as
none, ints beyond the double range raise OverflowError — which the
except clause does not cover, so it propagates. -/
def pyFloatConv : JVal → Except PyErr (Option PyFloat)
  | .bool b => .ok (some (.finite (.ofInt (if b then 1 else 0))))
  | .int n => if ovfNum ≤ n.natAbs then .error .overflowError else .ok (some (.finite (.ofInt n)))
  | .float q => .ok (some (.finite q))
  | .str s => .ok (pyParseFloat s)
  | _ => .ok none

/-- Module constant: the base of the section dominance weights. -/
def SECTION_DOMINANCE_BASE : ℤ := 5

/-- Module constant: the per-rank decay 0.65, idealised as the exact
rational thirteen twentieths. -/
def VALUE_DECAY : PyRat := ⟨13, 20⟩

/-- Module constant: the high-priority threshold 0.5. -/
def HIGH_PRIORITY_VALUE_WEIGHT_THRESHOLD : PyRat := ⟨1, 2⟩

/-- Module constant: the key marker of per-term search entries. -/
def SEARCH_TERM_ITEM_PREFIX : String := "search_term_item:"

/-- Module constant: the fixed field paths of the text haystack. -/
def TEXT_SEARCH_FIELDS : List String :=
  ["system_type", "scanner_reader", "components_included.scanner_reader", "phone_models",
   "scan_required", "scan_required_for_current_reading", "pricing_notes", "insurance_notes",
   "product_name", "notes"]

/-- canonical_section_weight of the module: base to the power
max(0, total - index - 1), the truncation being exactly natural
subtraction. -/
def canonical_section_weight (total_sections index : ℕ) : PyRat :=
  .ofInt (SECTION_DOMINANCE_BASE ^ (total_sections - index - 1))

/-- canonical_value_weight of the module: decay to the rank. -/
def canonical_value_weight (rank : ℕ) : PyRat := VALUE_DECAY.pow rank

/-- The dict comprehension of _build_filter_map: keeps dict entries keyed
by their key field, later duplicates overwriting earlier ones in place;
an unhashable key value raises TypeError at insertion. -/
def buildFMGo : List JVal → List (JVal × JVal) → Except PyErr (List (JVal × JVal))
  | [], m => .ok m
  | e :: rest, m =>
      match e with
      | .obj fs =>
          let k := objGet fs "key"
          if hashableJ k then buildFMGo rest (jdSet m k e) else .error .typeError
      | _ => buildFMGo rest m

/-- The _build_filter_map function of the module. -/
def _build_filter_map (config : List (String × JVal)) : Except PyErr (List (JVal × JVal)) :=
  match iterOrEmpty (objGet config "filters") with
  | .error e => .error e
  | .ok entries => buildFMGo entries []

/-- The filter_keys comprehension of _default_section_order: key fields of
dict entries, kept when truthy. -/
def keyTruthyFilter : List JVal → List JVal
  | [] => []
  | e :: rest =>
      match e with
      | .obj fs =>
          let k := objGet fs "key"
          if pyTruthy k then k :: keyTruthyFilter rest else keyTruthyFilter rest
      | _ => keyTruthyFilter rest

/-- The section loop of _default_section_order: for each dict section,
the keys of its filters list that occur in filter_keys, in order. -/
def sectionGroupKeys (fkeys : List JVal) : List JVal → Except PyErr (List JVal)
  | [] => .ok []
  | s :: rest =>
      match s with
      | .obj fs =>
          (match iterOrEmpty (objGet fs "filters") with
           | .error e => .error e
           | .ok items =>
               match sectionGroupKeys fkeys rest with
               | .error e => .error e
               | .ok more => .ok (items.filter (fun k => pyMemList fkeys k) ++ more))
      | _ => sectionGroupKeys fkeys rest

/-- The _default_section_order function of the module: the grouped section
keys, or the raw filter keys when no grouping matched. -/
def _default_section_order (config : List (String × JVal)) : Except PyErr (List JVal) :=
  match iterOrEmpty (objGet config "filters") with
  | .error e => .error e
  | .ok fentries =>
      let fkeys := keyTruthyFilter fentries
      match iterOrEmpty (objGet config "sections") with
      | .error e => .error e
      | .ok sentries =>
          match sectionGroupKeys fkeys sentries with
          | .error e => .error e
          | .ok sk => .ok (if sk.isEmpty then fkeys else sk)

/-- Conversion of one range bound: numbers (bools included, as Python
isinstance(x, (int, float)) admits them) are converted by float(), whose
overflow on out-of-range ints raises; everything else means no bound. -/
def rangeBoundE : JVal → Except PyErr (Option PyRat)
  | .bool b => .ok (some (.ofInt (if b then 1 else 0)))
  | .int n => if ovfNum ≤ n.natAbs then .error .overflowError else .ok (some (.ofInt n))
  | .float q => .ok (some q)
  | _ => .ok none

/-- The loop of _extract_range_filters over the filter map: range-typed
specs whose raw filter value is a dict with at least one numeric bound
become active range selections keyed like a dict. -/
def extractRFGo (filters : List (String × JVal)) :
    List (JVal × JVal) → List (JVal × (Option PyRat × Option PyRat)) →
    Except PyErr (List (JVal × (Option PyRat × Option PyRat)))
  | [], acc => .ok acc
  | (key, spec) :: rest, acc =>
      match vGet spec "type" with
      | .error e => .error e
      | .ok ty =>
          if !pyEq ty (.str "range") then extractRFGo filters rest acc
          else
            match sdGetH filters key with
            | .error e => .error e
            | .ok (some (.obj rf)) =>
                (match rangeBoundE (objGet rf "min") with
                 | .error e => .error e
                 | .ok mn =>
                     match rangeBoundE (objGet rf "max") with
                     | .error e => .error e
                     | .ok mx =>
                         if mn.isNone && mx.isNone then extractRFGo filters rest acc
                         else extractRFGo filters rest (jdSet acc key (mn, mx)))
            | .ok _ => extractRFGo filters rest acc

/-- The _extract_range_filters function of the module. -/
def _extract_range_filters (filters : List (String × JVal)) (filter_map : List (JVal × JVal)) :
    Except PyErr (List (JVal × (Option PyRat × Option PyRat))) :=
  extractRFGo filters filter_map []

/-- The priority spec produced by _build_priority_spec. -/
structure PrioritySpec where
  sections : List JVal
  selected_values : List (JVal × List String)
  token_weights : List (String × PyRat)
  section_weights : List (JVal × PyRat)
  selected_tokens : List String
  high_priority_tokens : List String
  total_selected_count : ℕ

/-- The empty accumulators the builder starts from. -/
def emptySpec : PrioritySpec := ⟨[], [], [], [], [], [], 0⟩

/-- Normalisation and first-occurrence dedup of one section's selection
list, with the seen set threaded through. -/
def dedupNormGo (seen : List String) : List String → List String
  | [] => []
  | it :: rest =>
      let n := normStr it
      if n == "" || seen.contains n then dedupNormGo seen rest
      else n :: dedupNormGo (n :: seen) rest

/-- Normalised, deduplicated selection values of one section, in
first-seen order. -/
def dedupNorm (items : List String) : List String := dedupNormGo [] items

/-- The inner loop of _build_priority_spec over the deduplicated values of
one active section: token weight, selected-token set, and the
high-priority set gated by the threshold comparison on the value weight. -/
def valueLoop (tokPre : String) (sw : PyRat) : ℕ → List String → PrioritySpec → PrioritySpec
  | _, [], ps => ps
  | r, v :: vs, ps =>
      let vw := canonical_value_weight r
      let token := tokPre ++ ":" ++ v
      valueLoop tokPre sw (r + 1) vs
        { ps with
          token_weights := wdSet ps.token_weights token (sw.mul vw)
          selected_tokens := setAdd ps.selected_tokens token
          high_priority_tokens :=
            if HIGH_PRIORITY_VALUE_WEIGHT_THRESHOLD.leb vw then
              setAdd ps.high_priority_tokens token
            else ps.high_priority_tokens }

/-- The Python truthiness chain items = so.get(key) or so.get(norm) or []
on lists of selected values. -/
def selERChain (a : Option (List String)) (b : Option (List String)) : List String :=
  match a with
  | some l => if l.isEmpty then (match b with | some l2 => l2 | none => []) else l
  | none => match b with | some l2 => l2 | none => []

/-- The part of one section iteration after the selection lookups: skip
when there are no values and no range, else append the section, accumulate
the count, store the section weight and run the value loop. -/
def buildStepActive (total_sections index : ℕ) (section_key : JVal)
    (vals : List String) (hasRange : Bool) (ps : PrioritySpec) : PrioritySpec :=
  if vals.isEmpty && !hasRange then ps
  else
    let sw := canonical_section_weight total_sections index
    let ps1 : PrioritySpec :=
      { ps with
        sections := ps.sections ++ [section_key]
        selected_values :=
          if vals.isEmpty then ps.selected_values
          else jdSet ps.selected_values section_key vals
        total_selected_count :=
          ps.total_selected_count + (if vals.isEmpty then 1 else vals.length)
        section_weights := jdSet ps.section_weights section_key sw }
    valueLoop (pyStr section_key) sw 0 vals ps1

/-- One iteration of the section loop of _build_priority_spec. -/
def buildStep (total_sections : ℕ) (selected_order : List (String × List String))
    (range_keys : List JVal) (index : ℕ) (section_key : JVal) (ps : PrioritySpec) :
    Except PyErr PrioritySpec :=
  let ns := pyNormalize section_key
  if ns == "" then .ok ps
  else
    match sdGetH selected_order section_key with
    | .error e => .error e
    | .ok a =>
    let vals := dedupNorm (selERChain a (sdGet selected_order ns))
    match jMemH range_keys section_key with
    | .error e => .error e
    | .ok hasRange => .ok (buildStepActive total_sections index section_key vals hasRange ps)

/-- The section loop of _build_priority_spec with its running index. -/
def buildGo (total_sections : ℕ) (selected_order : List (String × List String))
    (range_keys : List JVal) : ℕ → List JVal → PrioritySpec → Except PyErr PrioritySpec
  | _, [], ps => .ok ps
  | i, k :: rest, ps =>
      match buildStep total_sections selected_order range_keys i k ps with
      | .error e => .error e
      | .ok ps2 => buildGo total_sections selected_order range_keys (i + 1) rest ps2

/-- The _build_priority_spec function of the module. -/
def _build_priority_spec (section_order : List JVal)
    (selected_order : List (String × List String)) (range_keys : List JVal) :
    Except PyErr PrioritySpec :=
  buildGo section_order.length selected_order range_keys 0 section_order emptySpec

/-- Whether a close angle bracket occurs in the list. -/
def hasGt (l : List Char) : Bool := l.any (fun c => c == '>')

mutual

/-- The first substitution of strip_html: each leftmost match of an open
angle bracket up to the nearest close angle bracket becomes one space; an
open bracket with no close bracket anywhere after it stays (the regex
cannot match without one). -/
def stripTags : List Char → List Char
  | [] => []
  | c :: rest =>
      if c = '<' && hasGt rest then ' ' :: skipTag rest else c :: stripTags rest

/-- Skips the inside of one tag through its close bracket. -/
def skipTag : List Char → List Char
  | [] => []
  | c :: rest => if c = '>' then stripTags rest else skipTag rest

end

/-- The second substitution of strip_html: every maximal whitespace run
becomes a single space (flag records whether the previous character was
whitespace). -/
def collapseWsGo (prevWs : Bool) : List Char → List Char
  | [] => []
  | c :: rest =>
      if isPyWs c then
        (if prevWs then collapseWsGo true rest else ' ' :: collapseWsGo true rest)
      else c :: collapseWsGo false rest

/-- The strip_html function of the module: strip tags, collapse
whitespace, strip the ends. -/
def strip_html (s : String) : String :=
  pyStrip ⟨collapseWsGo false (stripTags s.data)⟩

mutual

/-- The _push_value helper: flattens a value into the list of the string
forms of its leaves, skipping None, descending into list elements and
dict values in order. -/
def pushValue : JVal → List String
  | .null => []
  | .arr xs => pushValueL xs
  | .obj fs => pushValueF fs
  | v => [pyStr v]

/-- Flattening of the elements of a list value. -/
def pushValueL : List JVal → List String
  | [] => []
  | x :: xs => pushValue x ++ pushValueL xs

/-- Flattening of the field values of a dict value. -/
def pushValueF : List (String × JVal) → List String
  | [] => []
  | (_, v) :: fs => pushValue v ++ pushValueF fs

end

/-- Resolution and flattening of the fixed text field paths. -/
def collectFields (item : List (String × JVal)) : List String → Except PyErr (List String)
  | [] => .ok []
  | p :: rest =>
      match resolve_path (.obj item) (.str p) with
      | .error e => .error e
      | .ok v =>
          match collectFields item rest with
          | .error e => .error e
          | .ok more => .ok (pushValue v ++ more)

/-- The pricing_sources loop of the haystack builder: the label of each
dict entry of the list is flattened in. -/
def pricingLabels : List JVal → List String
  | [] => []
  | .obj fs :: rest => pushValue (objGet fs "label") ++ pricingLabels rest
  | _ :: rest => pricingLabels rest

/-- The build_text_search_haystack function of the module: the flattened
fixed fields, the pricing source labels, the synthetic scan-required
phrases, joined by spaces, tag-stripped and normalised. -/
def build_text_search_haystack (item : List (String × JVal)) : Except PyErr String :=
  match collectFields item TEXT_SEARCH_FIELDS with
  | .error e => .error e
  | .ok base =>
  match resolve_path (.obj item) (.str "pricing_sources") with
  | .error e => .error e
  | .ok ps =>
  let pricing :=
    match ps with
    | .arr entries => pricingLabels entries
    | _ => []
  match resolve_path (.obj item) (.str "scan_required") with
  | .error e => .error e
  | .ok sr =>
  let srParts :=
    match sr with
    | .str s =>
        (if pyNormalize (.str s) == "no" then ["no scanning"] else []) ++
          (if pyNormalize (.str s) == "yes" then ["scan required"] else [])
    | .bool b => [if b then "scan required" else "no scanning"]
    | _ => []
  match resolve_path (.obj item) (.str "scan_required_for_current_reading") with
  | .error e => .error e
  | .ok sr2 =>
  let sr2Parts :=
    match sr2 with
    | .bool b => [if b then "scan required" else "no scanning"]
    | _ => []
  .ok (normStr (strip_html (joinSep " " (base ++ pricing ++ srParts ++ sr2Parts))))

/-- The _filter_is_text predicate of the module: startswith on the section
key (raising AttributeError on a non-string key, exactly as Python does),
else the spec type being text. -/
def _filter_is_text (section_key : JVal) (spec : Option JVal) : Except PyErr Bool :=
  match section_key with
  | .str s =>
      if strStartsWith s SEARCH_TERM_ITEM_PREFIX then .ok true
      else
        match spec with
        | some sp =>
            if pyTruthy sp then
              match vGet sp "type" with
              | .error e => .error e
              | .ok t => .ok (pyEq t (.str "text"))
            else .ok false
        | none => .ok false
  | _ => .error .attributeError

/-- The token comprehension over a list value: one token per entry with a
nonempty normalisation. -/
def tokensOfList (kstr : String) : List JVal → List String
  | [] => []
  | e :: rest =>
      let n := pyNormalize e
      if n == "" then tokensOfList kstr rest
      else (kstr ++ ":" ++ n) :: tokensOfList kstr rest

/-- The _extract_tokens function of the module. -/
def _extract_tokens (item : List (String × JVal)) (section_key : JVal)
    (spec : Option JVal) : Except PyErr (List String) :=
  match spec with
  | none => .ok []
  | some sp =>
      if !pyTruthy sp then .ok []
      else
        match vGet sp "path" with
        | .error e => .error e
        | .ok p =>
        if !pyTruthy p then .ok []
        else
          match vGet sp "type" with
          | .error e => .error e
          | .ok ft =>
          match resolve_path (.obj item) p with
          | .error e => .error e
          | .ok value =>
          let kstr := pyStr section_key
          if pyEq (.str "checkboxes") ft || pyEq (.str "select") ft || pyEq (.str "scalar") ft then
            match value with
            | .arr entries => .ok (tokensOfList kstr entries)
            | v =>
                let n := pyNormalize v
                .ok (if n == "" then [] else [kstr ++ ":" ++ n])
          else if pyEq (.str "boolean") ft then
            match value with
            | .null => .ok []
            | v => .ok [kstr ++ ":" ++ (if pyTruthy v then "true" else "false")]
          else
            match value with
            | .arr entries => .ok (tokensOfList kstr entries)
            | v =>
                let n := pyNormalize v
                .ok (if n == "" then [] else [kstr ++ ":" ++ n])

/-- One scored tuple of the scorer: the annotated item copy and the fields
entry[1..4] of the Python tuple. -/
structure ScoredEntry where
  obj : List (String × JVal)
  score : PyRat
  total_matches : ℕ
  high_priority_matches : ℕ
  range_matches : ℕ

/-- The index the sort key reads back from the annotation of the item
copy.  Total where Python indexing would raise KeyError, which the scorer
makes unreachable by always writing the annotation first. -/
def annIndex (o : List (String × JVal)) : ℤ :=
  match objGet o "_mcda" with
  | .obj a =>
      match objGet a "index" with
      | .int n => n
      | _ => 0
  | _ => 0

/-- The sort order of the scorer: ascending in the key tuple
(-derived_score, original index); so a comes before b when a scores
strictly higher, or scores are equal (as float values) and the stored
index of a is at most that of b.  Python list.sort is a stable sort by
this key; the keys of distinct entries here are distinct (the indices
are), so every correct sort returns the same list and insertion sort
below is extensionally the Python sort. -/
def scoreRel (a b : ScoredEntry) : Prop :=
  b.score.lt a.score ∨ (a.score.beq b.score = true ∧ annIndex a.obj ≤ annIndex b.obj)

instance : DecidableRel scoreRel := fun a b =>
  inferInstanceAs
    (Decidable (b.score.lt a.score ∨ (a.score.beq b.score = true ∧ annIndex a.obj ≤ annIndex b.obj)))

/-- The running match counters and score of one item. -/
structure RangeAcc where
  tm : ℕ
  hm : ℕ
  rm : ℕ
  score : PyRat

/-- One iteration of the range loop of the scorer, for one active range
selection: missing or falsy spec or path skips; the resolved value is
converted by float() inside try/except (TypeError, ValueError); a value
below min or above max skips; otherwise all three counters are
incremented and the section weight (default 0.0) is added. -/
def rangeStep (filter_map : List (JVal × JVal)) (section_weights : List (JVal × PyRat))
    (item : List (String × JVal)) (acc : RangeAcc)
    (sel : JVal × (Option PyRat × Option PyRat)) : Except PyErr RangeAcc :=
  match jdGet filter_map sel.1 with
  | none => .ok acc
  | some sp =>
      if !pyTruthy sp then .ok acc
      else
        match vGet sp "path" with
        | .error e => .error e
        | .ok p =>
        if !pyTruthy p then .ok acc
        else
          match resolve_path (.obj item) p with
          | .error e => .error e
          | .ok raw =>
          match pyFloatConv raw with
          | .error e => .error e
          | .ok none => .ok acc
          | .ok (some x) =>
              if (match sel.2.1 with | some m => x.ltb m | none => false) then .ok acc
              else if (match sel.2.2 with | some m => x.gtb m | none => false) then .ok acc
              else
                .ok ⟨acc.tm + 1, acc.hm + 1, acc.rm + 1,
                     acc.score.add ((jdGet section_weights sel.1).getD (.ofInt 0))⟩

/-- The range loop of the scorer over the active range selections. -/
def rangeLoop (filter_map : List (JVal × JVal)) (section_weights : List (JVal × PyRat))
    (item : List (String × JVal)) :
    List (JVal × (Option PyRat × Option PyRat)) → RangeAcc → Except PyErr RangeAcc
  | [], acc => .ok acc
  | sel :: rest, acc =>
      match rangeStep filter_map section_weights item acc sel with
      | .error e => .error e
      | .ok acc2 => rangeLoop filter_map section_weights item rest acc2

/-- Structured token collection of one item over the structured priority
sections, accumulated as a set. -/
def collectTokens (item : List (String × JVal)) :
    List (JVal × Option JVal) → List String → Except PyErr (List String)
  | [], acc => .ok acc
  | (k, sp) :: rest, acc =>
      match _extract_tokens item k sp with
      | .error e => .error e
      | .ok ts => collectTokens item rest (ts.foldl setAdd acc)

/-- Search token collection of one item: for each search section, each
nonempty selected term contained in the haystack contributes its token. -/
def textTokens (hay : String) (selected_values : List (JVal × List String)) :
    List JVal → List String → List String
  | [], acc => acc
  | k :: rest, acc =>
      let terms := (jdGet selected_values k).getD []
      textTokens hay selected_values rest
        (terms.foldl
          (fun a term =>
            if term != "" && strContains term hay then setAdd a (pyStr k ++ ":" ++ term)
            else a)
          acc)

/-- The token loop of the scorer: for each collected token that is a
selected token, one total match, one high-priority match when it is in
the high-priority set, and its weight (default 0.0) added.  Python
iterates the item token set in hash order; every accumulation here is
order-independent (counts, and addition of exact rationals), so the
insertion-ordered list is a faithful iteration. -/
def tokenStats (selected_tokens high_priority_tokens : List String)
    (token_weights : List (String × PyRat)) :
    List String → ℕ × ℕ × PyRat → ℕ × ℕ × PyRat
  | [], acc => acc
  | t :: rest, (tm, hm, sc) =>
      if selected_tokens.contains t then
        tokenStats selected_tokens high_priority_tokens token_weights rest
          (tm + 1,
           (if high_priority_tokens.contains t then hm + 1 else hm),
           sc.add ((sdGet token_weights t).getD (.ofInt 0)))
      else tokenStats selected_tokens high_priority_tokens token_weights rest (tm, hm, sc)

/-- The _mcda annotation dict written into the item copy. -/
def mcdaObj (sc : PyRat) (tm hm rm tsc i : ℕ) : JVal :=
  .obj [("derived_score", .float sc), ("total_matches", .int tm),
        ("high_priority_matches", .int hm), ("range_matches", .int rm),
        ("total_selected_count", .int tsc), ("index", .int i)]

/-- Everything the per-item scoring loop reads, fixed across items. -/
structure ScoreCtx where
  prioritySections : List (JVal × Option JVal)
  prioritySearch : List JVal
  selected_values : List (JVal × List String)
  token_weights : List (String × PyRat)
  section_weights : List (JVal × PyRat)
  selected_tokens : List String
  high_priority_tokens : List String
  filter_map : List (JVal × JVal)
  range_selections : List (JVal × (Option PyRat × Option PyRat))
  total_selected_count : ℕ

/-- Search-token augmentation of one item's structured tokens: the
haystack is built only when search sections are active. -/
def scoreTokens (ctx : ScoreCtx) (item : List (String × JVal)) (toks0 : List String) :
    Except PyErr (List String) :=
  if ctx.prioritySearch.isEmpty then .ok toks0
  else
    match build_text_search_haystack item with
    | .error e => .error e
    | .ok hay => .ok (textTokens hay ctx.selected_values ctx.prioritySearch toks0)

/-- The tail of per-item scoring after token stats: the range loop and the
annotated shallow copy dict(item) with the _mcda key assigned. -/
def scoreBody (ctx : ScoreCtx) (i : ℕ) (item : List (String × JVal))
    (stats : ℕ × ℕ × PyRat) : Except PyErr ScoredEntry :=
  match rangeLoop ctx.filter_map ctx.section_weights item ctx.range_selections
      ⟨stats.1, stats.2.1, 0, stats.2.2⟩ with
  | .error e => .error e
  | .ok racc =>
  .ok ⟨sdSet item "_mcda"
        (mcdaObj racc.score racc.tm racc.hm racc.rm ctx.total_selected_count i),
      racc.score, racc.tm, racc.hm, racc.rm⟩

/-- Scoring of one item at its original index: token collection, token
stats, the range loop, and the annotated shallow copy. -/
def scoreOne (ctx : ScoreCtx) (i : ℕ) (item : List (String × JVal)) :
    Except PyErr ScoredEntry :=
  match collectTokens item ctx.prioritySections [] with
  | .error e => .error e
  | .ok toks0 =>
  match scoreTokens ctx item toks0 with
  | .error e => .error e
  | .ok toks =>
  scoreBody ctx i item
    (tokenStats ctx.selected_tokens ctx.high_priority_tokens ctx.token_weights toks
      (0, 0, .ofInt 0))

/-- The item loop of the scorer, with the running original index. -/
def scoreItemsGo (ctx : ScoreCtx) : ℕ → List (List (String × JVal)) →
    Except PyErr (List ScoredEntry)
  | _, [] => .ok []
  | i, item :: rest =>
      match scoreOne ctx i item with
      | .error e => .error e
      | .ok en =>
          match scoreItemsGo ctx (i + 1) rest with
          | .error e => .error e
          | .ok es => .ok (en :: es)

/-- The text-or-structured flag of each active section, computed once per
key in order (the first Python comprehension evaluates _filter_is_text on
every key, so an error surfaces at the first raising key, as here). -/
def sectionFlags (filter_map : List (JVal × JVal)) :
    List JVal → Except PyErr (List (JVal × Option JVal × Bool))
  | [] => .ok []
  | k :: rest =>
      match _filter_is_text k (jdGet filter_map k) with
      | .error e => .error e
      | .ok t =>
          match sectionFlags filter_map rest with
          | .error e => .error e
          | .ok more => .ok ((k, jdGet filter_map k, t) :: more)

/-- The fixed per-item scoring context assembled by score_listings from
the filter map, the active range selections, the flagged priority
sections and the priority spec. -/
def mkCtx (filter_map : List (JVal × JVal))
    (range_selections : List (JVal × (Option PyRat × Option PyRat)))
    (flags : List (JVal × Option JVal × Bool)) (ps : PrioritySpec) : ScoreCtx :=
  { prioritySections := (flags.filter (fun e => !e.2.2)).map (fun e => (e.1, e.2.1))
    prioritySearch := (flags.filter (fun e => e.2.2)).map (fun e => e.1)
    selected_values := ps.selected_values
    token_weights := ps.token_weights
    section_weights := ps.section_weights
    selected_tokens := ps.selected_tokens
    high_priority_tokens := ps.high_priority_tokens
    filter_map := filter_map
    range_selections := range_selections
    total_selected_count := ps.total_selected_count }

/-- The score_listings function of the module.  The parameters carry the
declared Python types: item records and the two config dicts are
string-keyed dicts of dynamic values, selected_order maps strings to
string lists, section_order is an optional string list. -/
def score_listings (listings : List (List (String × JVal)))
    (config : List (String × JVal)) (filters : List (String × JVal))
    (selected_order : List (String × List String))
    (section_order : Option (List String)) :
    Except PyErr (List (List (String × JVal)) × ℕ) :=
  match _build_filter_map config with
  | .error e => .error e
  | .ok filter_map =>
  match
    (match section_order with
     | some l => if l.isEmpty then _default_section_order config else .ok (l.map JVal.str)
     | none => _default_section_order config) with
  | .error e => .error e
  | .ok eso =>
  match _extract_range_filters filters filter_map with
  | .error e => .error e
  | .ok range_selections =>
  match _build_priority_spec eso selected_order (range_selections.map (fun e => e.1)) with
  | .error e => .error e
  | .ok ps =>
  match sectionFlags filter_map ps.sections with
  | .error e => .error e
  | .ok flags =>
  match scoreItemsGo (mkCtx filter_map range_selections flags ps) 0 listings with
  | .error e => .error e
  | .ok scored =>
  .ok ((if 0 < ps.total_selected_count then List.insertionSort scoreRel scored
        else scored).map (fun e => e.obj),
       ps.total_selected_count)

/-! Supporting lemmas. -/

theorem pyRat_not_lt {a b : PyRat} : ¬ a.lt b ↔ b.le a := by
  unfold PyRat.lt PyRat.le
  exact Int.not_lt

theorem pyRat_not_le {a b : PyRat} : ¬ a.le b ↔ b.lt a := by
  unfold PyRat.lt PyRat.le
  exact Int.not_le

/-- Closed-interval membership with optional bounds, stated from the
specification words (a missing bound is unbounded, both ends inclusive),
for comparison with the code path of the range matcher. -/
def inClosedRange (q : PyRat) (mn mx : Option PyRat) : Prop :=
  (∀ m ∈ mn, m.le q) ∧ (∀ m ∈ mx, q.le m)

/-- Core fact about one range step when the resolved value converts to a
finite float q: the step matches exactly on the closed interval, a match
bumps the three counters by one and adds the section weight lookup
(with the dict-get default 0.0), and a miss leaves the accumulator
untouched. -/
theorem rangeStep_finite_core
    (fm : List (JVal × JVal)) (sw : List (JVal × PyRat)) (item : List (String × JVal))
    (acc : RangeAcc) (key sp p v : JVal) (mn mx : Option PyRat) (q : PyRat)
    (hk : jdGet fm key = some sp) (hsp : pyTruthy sp = true)
    (hpath : vGet sp "path" = .ok p) (hpt : pyTruthy p = true)
    (hv : resolve_path (.obj item) p = .ok v)
    (hconv : pyFloatConv v = .ok (some (.finite q))) :
    (inClosedRange q mn mx →
        rangeStep fm sw item acc (key, mn, mx) =
          .ok ⟨acc.tm + 1, acc.hm + 1, acc.rm + 1,
               acc.score.add ((jdGet sw key).getD (.ofInt 0))⟩) ∧
      (¬ inClosedRange q mn mx → rangeStep fm sw item acc (key, mn, mx) = .ok acc) := by
  rcases mn with _ | m <;> rcases mx with _ | M
  · constructor
    · intro _
      unfold rangeStep
      simp [hk, hsp, hpath, hpt, hv, hconv]
    · intro hout
      exact absurd ⟨by simp, by simp⟩ hout
  · constructor
    · intro hin
      have hM : q.le M := hin.2 M rfl
      have hb : (PyFloat.finite q).gtb M = false := by
        simp only [PyFloat.gtb, PyRat.ltb, decide_eq_false_iff_not]
        exact pyRat_not_lt.mpr hM
      unfold rangeStep
      simp [hk, hsp, hpath, hpt, hv, hconv, hb]
    · intro hout
      have hM : ¬ q.le M := by
        intro hq
        exact hout ⟨by simp, by simpa using hq⟩
      have hb : (PyFloat.finite q).gtb M = true := by
        simp only [PyFloat.gtb, PyRat.ltb, decide_eq_true_eq]
        exact pyRat_not_le.mp hM
      unfold rangeStep
      simp [hk, hsp, hpath, hpt, hv, hconv, hb]
  · constructor
    · intro hin
      have hm : m.le q := hin.1 m rfl
      have hb : (PyFloat.finite q).ltb m = false := by
        simp only [PyFloat.ltb, PyRat.ltb, decide_eq_false_iff_not]
        exact pyRat_not_lt.mpr hm
      unfold rangeStep
      simp [hk, hsp, hpath, hpt, hv, hconv, hb]
    · intro hout
      have hm : ¬ m.le q := by
        intro hq
        exact hout ⟨by simpa using hq, by simp⟩
      have hb : (PyFloat.finite q).ltb m = true := by
        simp only [PyFloat.ltb, PyRat.ltb, decide_eq_true_eq]
        exact pyRat_not_le.mp hm
      unfold rangeStep
      simp [hk, hsp, hpath, hpt, hv, hconv, hb]
  · constructor
    · intro hin
      have hm : m.le q := hin.1 m rfl
      have hM : q.le M := hin.2 M rfl
      have hb1 : (PyFloat.finite q).ltb m = false := by
        simp only [PyFloat.ltb, PyRat.ltb, decide_eq_false_iff_not]
        exact pyRat_not_lt.mpr hm
      have hb2 : (PyFloat.finite q).gtb M = false := by
        simp only [PyFloat.gtb, PyRat.ltb, decide_eq_false_iff_not]
        exact pyRat_not_lt.mpr hM
      unfold rangeStep
      simp [hk, hsp, hpath, hpt, hv, hconv, hb1, hb2]
    · intro hout
      by_cases hm : m.le q
      · have hM : ¬ q.le M := by
          intro hq
          refine hout ⟨?_, ?_⟩
          · simpa using hm
          · simpa using hq
        have hb1 : (PyFloat.finite q).ltb m = false := by
          simp only [PyFloat.ltb, PyRat.ltb, decide_eq_false_iff_not]
          exact pyRat_not_lt.mpr hm
        have hb2 : (PyFloat.finite q).gtb M = true := by
          simp only [PyFloat.gtb, PyRat.ltb, decide_eq_true_eq]
          exact pyRat_not_le.mp hM
        unfold rangeStep
        simp [hk, hsp, hpath, hpt, hv, hconv, hb1, hb2]
      · have hb1 : (PyFloat.finite q).ltb m = true := by
          simp only [PyFloat.ltb, PyRat.ltb, decide_eq_true_eq]
          exact pyRat_not_le.mp hm
        unfold rangeStep
        simp [hk, hsp, hpath, hpt, hv, hconv, hb1]

/-! Claim theorems. -/

/-- C1: on an item holding components.scanner = [x, y], resolve_path with
the path "components.scanner[0]" returns None rather than x.  The bracket
regex of the source is written with doubled backslashes inside a raw
string, so the segment "scanner[0]" never matches it and is looked up as
a plain dict key, which is absent. -/
theorem resolve_path_bracket_index_returns_null :
    resolve_path (.obj [("components", .obj [("scanner", .arr [.str "x", .str "y"])])])
        (.str "components.scanner[0]") = .ok .null ∧
      (Except.ok JVal.null : Except PyErr JVal) ≠ .ok (.str "x") := by
  refine ⟨by rfl, fun h => ?_⟩
  injection h with h2
  exact JVal.noConfusion h2

/-- C2 counterexample: with one section a and the selection order
[x, y], the rank-one token a:y is in highPriorityTokens, because the
value weight of rank one is 0.65, which is at least 0.5 — the claim says
the second-picked token never qualifies. -/
theorem rank_one_token_is_high_priority :
    (match _build_priority_spec [.str "a"] [("a", ["x", "y"])] [] with
     | .ok ps => ps.high_priority_tokens.contains "a:y"
     | .error _ => false) = true := by rfl

/-- C2 amended: a selected token is added to highPriorityTokens exactly
when its value weight 0.65 to the rank reaches the 0.5 threshold (the
comparison the builder performs at the token insertion), and that holds
precisely for ranks zero and one, since 0.65 is at least 0.5 while
0.65 squared is 0.4225. -/
theorem high_priority_threshold_iff_rank_le_one (r : ℕ) :
    HIGH_PRIORITY_VALUE_WEIGHT_THRESHOLD.leb (canonical_value_weight r) = true ↔ r ≤ 1 := by
  have hval : (canonical_value_weight r).toRat = ((13 : ℚ) / 20) ^ r := by
    rw [canonical_value_weight, PyRat.toRat_pow]
    norm_num [VALUE_DECAY, PyRat.toRat]
  have hthr : HIGH_PRIORITY_VALUE_WEIGHT_THRESHOLD.toRat = 1 / 2 := by
    norm_num [HIGH_PRIORITY_VALUE_WEIGHT_THRESHOLD, PyRat.toRat]
  rw [PyRat.leb, decide_eq_true_eq, PyRat.toRat_le_iff, hval, hthr]
  constructor
  · intro h
    rcases Nat.lt_or_ge r 2 with h2 | h2
    · omega
    · exfalso
      have hle : ((13 : ℚ) / 20) ^ r ≤ ((13 : ℚ) / 20) ^ 2 :=
        pow_le_pow_of_le_one (by norm_num) (by norm_num) h2
      nlinarith [hle]
  · intro h
    interval_cases r
    · norm_num
    · norm_num

/-- C4: whenever the value at the range path of an active range selection
is numeric (an int within the float range, or a float), the item is a
range match exactly when the value lies in the closed interval given by
the optional min and max bounds; a match increments total, high-priority
and range match counts by one and adds the sectionWeights entry of the key
(the dict-get default 0.0 applying when the key carries no weight), and a
miss changes nothing. -/
theorem range_match_iff_closed_interval
    (fm : List (JVal × JVal)) (sw : List (JVal × PyRat)) (item : List (String × JVal))
    (acc : RangeAcc) (key sp p v : JVal) (mn mx : Option PyRat) (z : ℤ) (q : PyRat)
    (hk : jdGet fm key = some sp) (hsp : pyTruthy sp = true)
    (hpath : vGet sp "path" = .ok p) (hpt : pyTruthy p = true)
    (hv : resolve_path (.obj item) p = .ok v)
    (hnum : (v = JVal.int z ∧ z.natAbs < ovfNum ∧ q = PyRat.ofInt z) ∨ v = JVal.float q) :
    (inClosedRange q mn mx →
        rangeStep fm sw item acc (key, mn, mx) =
          .ok ⟨acc.tm + 1, acc.hm + 1, acc.rm + 1,
               acc.score.add ((jdGet sw key).getD (.ofInt 0))⟩) ∧
      (¬ inClosedRange q mn mx → rangeStep fm sw item acc (key, mn, mx) = .ok acc) := by
  have hconv : pyFloatConv v = .ok (some (.finite q)) := by
    rcases hnum with ⟨hvz, hz, hq⟩ | hvf
    · subst hvz
      subst hq
      simp [pyFloatConv, Nat.not_le.mpr hz]
    · subst hvf
      rfl
  exact rangeStep_finite_core fm sw item acc key sp p v mn mx q hk hsp hpath hpt hv hconv

/-- C10: the range matcher is not restricted to values stored as numbers:
a string value that float() parses to a finite value, or a bool (True
converting to 1.0 and False to 0.0), is compared against the bounds
exactly like a stored number, with the same closed-interval match and the
same counter and score increments. -/
theorem range_match_parses_strings_and_bools
    (fm : List (JVal × JVal)) (sw : List (JVal × PyRat)) (item : List (String × JVal))
    (acc : RangeAcc) (key sp p v : JVal) (mn mx : Option PyRat) (q : PyRat)
    (hk : jdGet fm key = some sp) (hsp : pyTruthy sp = true)
    (hpath : vGet sp "path" = .ok p) (hpt : pyTruthy p = true)
    (hv : resolve_path (.obj item) p = .ok v)
    (hnum : (∃ s : String, v = JVal.str s ∧ pyParseFloat s = some (.finite q)) ∨
      (∃ b : Bool, v = JVal.bool b ∧ q = PyRat.ofInt (if b then 1 else 0))) :
    (inClosedRange q mn mx →
        rangeStep fm sw item acc (key, mn, mx) =
          .ok ⟨acc.tm + 1, acc.hm + 1, acc.rm + 1,
               acc.score.add ((jdGet sw key).getD (.ofInt 0))⟩) ∧
      (¬ inClosedRange q mn mx → rangeStep fm sw item acc (key, mn, mx) = .ok acc) := by
  have hconv : pyFloatConv v = .ok (some (.finite q)) := by
    rcases hnum with ⟨s, hvs, hs⟩ | ⟨b, hvb, hq⟩
    · subst hvs
      simp [pyFloatConv, hs]
    · subst hvb
      subst hq
      rfl
  exact rangeStep_finite_core fm sw item acc key sp p v mn mx q hk hsp hpath hpt hv hconv

/-- Shared concrete range fixture for the witnesses below. -/
def rangeSpecW : JVal :=
  .obj [("key", .str "price"), ("type", .str "range"), ("path", .str "price")]

/-- Filter map of the range fixture. -/
def rangeFmW : List (JVal × JVal) := [(.str "price", rangeSpecW)]

/-- Section weights of the range fixture. -/
def rangeSwW : List (JVal × PyRat) := [(.str "price", .ofInt 1)]

/-- C4 witness: an item whose price is exactly the min bound 100 of the
closed range [100, 200] is a range match with all three counters bumped. -/
theorem range_match_iff_closed_interval_witness :
    inClosedRange (PyRat.ofInt 100) (some (PyRat.ofInt 100)) (some (PyRat.ofInt 200)) ∧
      rangeStep rangeFmW rangeSwW [("price", .int 100)] ⟨0, 0, 0, .ofInt 0⟩
          (.str "price", some (PyRat.ofInt 100), some (PyRat.ofInt 200)) =
        .ok ⟨0 + 1, 0 + 1, 0 + 1,
             (PyRat.ofInt 0).add ((jdGet rangeSwW (.str "price")).getD (.ofInt 0))⟩ := by
  have hin : inClosedRange (PyRat.ofInt 100) (some (PyRat.ofInt 100)) (some (PyRat.ofInt 200)) := by
    constructor
    · intro m hm
      cases hm
      decide
    · intro m hm
      cases hm
      decide
  refine ⟨hin, ?_⟩
  exact (range_match_iff_closed_interval rangeFmW rangeSwW [("price", .int 100)]
    ⟨0, 0, 0, .ofInt 0⟩ (.str "price") rangeSpecW (.str "price") (.int 100)
    (some (PyRat.ofInt 100)) (some (PyRat.ofInt 200)) 100 (PyRat.ofInt 100)
    (by rfl) (by rfl) (by rfl) (by rfl) (by rfl)
    (Or.inl ⟨rfl, by decide, rfl⟩)).1 hin

/-- C10 witness: an item whose price is the string "150" parses to 150.0
and matches the closed range [100, 200] like a stored number. -/
theorem range_match_parses_strings_witness :
    inClosedRange ⟨150, 1⟩ (some (PyRat.ofInt 100)) (some (PyRat.ofInt 200)) ∧
      rangeStep rangeFmW rangeSwW [("price", .str "150")] ⟨0, 0, 0, .ofInt 0⟩
          (.str "price", some (PyRat.ofInt 100), some (PyRat.ofInt 200)) =
        .ok ⟨0 + 1, 0 + 1, 0 + 1,
             (PyRat.ofInt 0).add ((jdGet rangeSwW (.str "price")).getD (.ofInt 0))⟩ := by
  have hin : inClosedRange ⟨150, 1⟩ (some (PyRat.ofInt 100)) (some (PyRat.ofInt 200)) := by
    constructor
    · intro m hm
      cases hm
      decide
    · intro m hm
      cases hm
      decide
  refine ⟨hin, ?_⟩
  exact (range_match_parses_strings_and_bools rangeFmW rangeSwW [("price", .str "150")]
    ⟨0, 0, 0, .ofInt 0⟩ (.str "price") rangeSpecW (.str "price") (.str "150")
    (some (PyRat.ofInt 100)) (some (PyRat.ofInt 200)) ⟨150, 1⟩
    (by rfl) (by rfl) (by rfl) (by rfl) (by rfl)
    (Or.inl ⟨"150", rfl, by rfl⟩)).1 hin

/-- C5: with the default constants, an item matching only the first-picked
value of the first of two sections scores 5, strictly more than an item
matching any number n of at most 20 distinct selected values of the
second section, whose weights sum to less than 20/7. -/
theorem section_dominance (n : ℕ) (h : n ≤ 20) :
    (∑ r ∈ Finset.range n, ((canonical_section_weight 2 1).mul (canonical_value_weight r)).toRat)
      < ((canonical_section_weight 2 0).mul (canonical_value_weight 0)).toRat := by
  have hterm : ∀ r : ℕ, ((canonical_section_weight 2 1).mul (canonical_value_weight r)).toRat
      = ((13 : ℚ) / 20) ^ r := by
    intro r
    rw [PyRat.toRat_mul, canonical_value_weight, PyRat.toRat_pow]
    have h1 : (canonical_section_weight 2 1).toRat = 1 := by
      norm_num [canonical_section_weight, SECTION_DOMINANCE_BASE, PyRat.toRat_ofInt]
    have h2 : VALUE_DECAY.toRat = 13 / 20 := by
      norm_num [VALUE_DECAY, PyRat.toRat]
    rw [h1, h2, one_mul]
  have hrhs : ((canonical_section_weight 2 0).mul (canonical_value_weight 0)).toRat = 5 := by
    rw [PyRat.toRat_mul]
    norm_num [canonical_section_weight, SECTION_DOMINANCE_BASE, PyRat.toRat_ofInt,
      canonical_value_weight, PyRat.pow]
  rw [hrhs, Finset.sum_congr rfl (fun r _ => hterm r),
    geom_sum_eq (show ((13 : ℚ) / 20) ≠ 1 by norm_num) n,
    div_lt_iff_of_neg (show ((13 : ℚ) / 20) - 1 < 0 by norm_num)]
  have hp : (0 : ℚ) < ((13 : ℚ) / 20) ^ n := by positivity
  nlinarith [hp]

/-- C5 witness: the dominance inequality at the extreme allowed size,
twenty selected values in the dominated section. -/
theorem section_dominance_witness :
    20 ≤ 20 ∧
      (∑ r ∈ Finset.range 20,
          ((canonical_section_weight 2 1).mul (canonical_value_weight r)).toRat)
        < ((canonical_section_weight 2 0).mul (canonical_value_weight 0)).toRat :=
  ⟨by norm_num, section_dominance 20 (by norm_num)⟩

set_option maxRecDepth 40000 in
/-- C8: the scorer is not total over arbitrary item records: an item whose
value at an active range path is an integer beyond the binary64 range
makes float() raise OverflowError, which the except clause (TypeError,
ValueError) does not cover, so score_listings raises instead of treating
the value as no signal. -/
theorem score_listings_overflow_raises :
    score_listings [[("price", .int ((10 : ℤ) ^ 400))]]
      [("filters", .arr [.obj [("key", .str "price"), ("type", .str "range"),
        ("path", .str "price")]])]
      [("price", .obj [("min", .int 0)])] [] (some ["price"]) = .error .overflowError := by
  rfl

/-! Dedup invariance of the priority spec builder (C6). -/

theorem contains_iff_mem {l : List String} {s : String} : l.contains s = true ↔ s ∈ l := by
  induction l with
  | nil => simp
  | cons a t ih =>
      by_cases h : s = a
      · subst h
        simp [List.contains_cons]
      · simp [List.contains_cons, h, ih]

/-- A later occurrence of an already-seen (or already-kept) normalised
value contributes nothing to the normalise-and-dedup pass. -/
theorem dedupNormGo_dup (v : String) (l2 : List String) :
    ∀ (l1 : List String) (seen : List String),
      (normStr v ∈ dedupNormGo seen l1 ∨ normStr v ∈ seen) →
      dedupNormGo seen (l1 ++ v :: l2) = dedupNormGo seen (l1 ++ l2) := by
  intro l1
  induction l1 with
  | nil =>
      intro seen h
      rcases h with h | h
      · simp [dedupNormGo] at h
      · show dedupNormGo seen (v :: l2) = dedupNormGo seen l2
        have hc : (normStr v == "" || seen.contains (normStr v)) = true := by
          rw [Bool.or_eq_true]
          exact Or.inr (contains_iff_mem.mpr h)
        simp only [dedupNormGo, hc, if_true]
  | cons x rest ih =>
      intro seen h
      simp only [List.cons_append, dedupNormGo]
      by_cases hskip : (normStr x == "" || seen.contains (normStr x)) = true
      · rw [if_pos hskip, if_pos hskip]
        apply ih
        have hx : dedupNormGo seen (x :: rest) = dedupNormGo seen rest := by
          simp only [dedupNormGo]
          rw [if_pos hskip]
        rcases h with h | h
        · left
          rwa [hx] at h
        · exact Or.inr h
      · rw [if_neg hskip, if_neg hskip]
        congr 1
        apply ih
        have hx : dedupNormGo seen (x :: rest) =
            normStr x :: dedupNormGo (normStr x :: seen) rest := by
          simp only [dedupNormGo]
          rw [if_neg hskip]
        rcases h with h | h
        · rw [hx] at h
          rcases List.mem_cons.mp h with he | hm
          · right
            rw [he]
            exact List.mem_cons_self _ _
          · exact Or.inl hm
        · exact Or.inr (List.mem_cons_of_mem _ h)

/-- The truthiness chain produces lists with equal dedup when each slot
is either unchanged or swaps one nonempty list for another with the same
dedup. -/
theorem chain_dedup_congr (L1 L2 : List String) (hL : dedupNorm L1 = dedupNorm L2)
    (h1 : L1 ≠ []) (h2 : L2 ≠ [])
    (a1 a2 b1 b2 : Option (List String))
    (ha : a1 = a2 ∨ (a1 = some L1 ∧ a2 = some L2))
    (hb : b1 = b2 ∨ (b1 = some L1 ∧ b2 = some L2)) :
    dedupNorm (selERChain a1 b1) = dedupNorm (selERChain a2 b2) := by
  have hne1 : L1.isEmpty = false := by
    cases L1 with
    | nil => exact absurd rfl h1
    | cons x xs => rfl
  have hne2 : L2.isEmpty = false := by
    cases L2 with
    | nil => exact absurd rfl h2
    | cons x xs => rfl
  rcases ha with haeq | ⟨ha1, ha2⟩
  · subst haeq
    rcases hb with hbeq | ⟨hb1, hb2⟩
    · subst hbeq
      rfl
    · subst hb1
      subst hb2
      rcases a1 with _ | l
      · simpa [selERChain] using hL
      · simp only [selERChain]
        by_cases hl : l.isEmpty
        · rw [if_pos hl, if_pos hl]
          exact hL
        · rw [if_neg hl, if_neg hl]
  · subst ha1
    subst ha2
    simp only [selERChain, hne1, hne2, Bool.false_eq_true, if_false]
    exact hL

/-- One section iteration is unchanged when one selection list is swapped
for a nonempty one with the same dedup. -/
theorem buildStep_dup (N : ℕ) (rk : List JVal) (s : String) (L1 L2 : List String)
    (sel : List (String × List String)) (hL : dedupNorm L1 = dedupNorm L2)
    (h1 : L1 ≠ []) (h2 : L2 ≠ []) (i : ℕ) (k : JVal) (ps : PrioritySpec) :
    buildStep N ((s, L1) :: sel) rk i k ps = buildStep N ((s, L2) :: sel) rk i k ps := by
  unfold buildStep
  by_cases hns : (pyNormalize k == "") = true
  · rw [if_pos hns, if_pos hns]
  · rw [if_neg hns, if_neg hns]
    have hbpair : (sdGet ((s, L1) :: sel) (pyNormalize k) =
          sdGet ((s, L2) :: sel) (pyNormalize k)) ∨
        (sdGet ((s, L1) :: sel) (pyNormalize k) = some L1 ∧
          sdGet ((s, L2) :: sel) (pyNormalize k) = some L2) := by
      by_cases hsn : (s == pyNormalize k) = true
      · right
        constructor <;> simp [sdGet, hsn]
      · left
        simp [sdGet, hsn]
    by_cases hh : hashableJ k = true
    · by_cases hpk : pyEq (.str s) k = true
      · have ha1 : sdGetH ((s, L1) :: sel) k = .ok (some L1) := by
          simp [sdGetH, hh, List.find?_cons, hpk]
        have ha2 : sdGetH ((s, L2) :: sel) k = .ok (some L2) := by
          simp [sdGetH, hh, List.find?_cons, hpk]
        rw [ha1, ha2]
        simp only []
        have hvals := chain_dedup_congr L1 L2 hL h1 h2 (some L1) (some L2) _ _
          (Or.inr ⟨rfl, rfl⟩) hbpair
        rw [hvals]
      · have ha : sdGetH ((s, L1) :: sel) k = sdGetH ((s, L2) :: sel) k := by
          simp [sdGetH, hh, List.find?_cons, hpk]
        rw [ha]
        cases sdGetH ((s, L2) :: sel) k with
        | error e => rfl
        | ok a =>
            simp only []
            have hvals := chain_dedup_congr L1 L2 hL h1 h2 a a _ _ (Or.inl rfl) hbpair
            rw [hvals]
    · simp [sdGetH, hh]

/-- The whole section loop is unchanged under the same swap. -/
theorem buildGo_dup (N : ℕ) (rk : List JVal) (s : String) (L1 L2 : List String)
    (sel : List (String × List String)) (hL : dedupNorm L1 = dedupNorm L2)
    (h1 : L1 ≠ []) (h2 : L2 ≠ []) :
    ∀ (keys : List JVal) (i : ℕ) (ps : PrioritySpec),
      buildGo N ((s, L1) :: sel) rk i keys ps = buildGo N ((s, L2) :: sel) rk i keys ps := by
  intro keys
  induction keys with
  | nil =>
      intro i ps
      rfl
  | cons k rest ih =>
      intro i ps
      simp only [buildGo]
      rw [buildStep_dup N rk s L1 L2 sel hL h1 h2 i k ps]
      cases buildStep N ((s, L2) :: sel) rk i k ps with
      | error e => rfl
      | ok ps2 => exact ih (i + 1) ps2

/-- C6: a duplicate selection value (one whose normalisation already
occurs among the kept values of the earlier part of the section's list)
changes nothing in the priority spec: the whole _build_priority_spec
output — tokens, weights, ranks and totalSelectedCount — is the same as
with the duplicate removed, so ranks are determined by first occurrence
among the distinct normalised values. -/
theorem duplicate_selection_value_ignored
    (section_order range_keys : List JVal) (sel : List (String × List String))
    (s : String) (l1 : List String) (v : String) (l2 : List String)
    (hdup : normStr v ∈ dedupNorm l1) :
    _build_priority_spec section_order ((s, l1 ++ v :: l2) :: sel) range_keys =
      _build_priority_spec section_order ((s, l1 ++ l2) :: sel) range_keys := by
  have h1 : l1 ≠ [] := by
    intro he
    subst he
    simp [dedupNorm, dedupNormGo] at hdup
  have hL : dedupNorm (l1 ++ v :: l2) = dedupNorm (l1 ++ l2) :=
    dedupNormGo_dup v l2 l1 [] (Or.inl hdup)
  have hne1 : l1 ++ v :: l2 ≠ [] := by simp
  have hne2 : l1 ++ l2 ≠ [] := by
    intro he
    exact h1 (List.append_eq_nil.mp he).1
  unfold _build_priority_spec
  exact buildGo_dup section_order.length range_keys s (l1 ++ v :: l2) (l1 ++ l2) sel hL hne1
    hne2 section_order 0 emptySpec

/-- C6 witness: in the section a with selection order [x, X-space, y],
the second value normalises to the already-kept x, and the priority spec
equals the one built from [x, y]. -/
theorem duplicate_selection_value_ignored_witness :
    normStr "X " ∈ dedupNorm ["x"] ∧
      _build_priority_spec [.str "a"] [("a", ["x"] ++ "X " :: ["y"])] [] =
        _build_priority_spec [.str "a"] [("a", ["x"] ++ ["y"])] [] := by
  have hdup : normStr "X " ∈ dedupNorm ["x"] := by decide
  exact ⟨hdup,
    duplicate_selection_value_ignored [.str "a"] [] [] "a" ["x"] "X " ["y"] hdup⟩

/-! Section weights from position in the full order (C7). -/

theorem valueLoop_sections (t : String) (sw : PyRat) :
    ∀ (r : ℕ) (vs : List String) (ps : PrioritySpec),
      (valueLoop t sw r vs ps).sections = ps.sections := by
  intro r vs
  induction vs generalizing r with
  | nil => intro ps; rfl
  | cons v rest ih => intro ps; simp only [valueLoop]; rw [ih]

theorem valueLoop_section_weights (t : String) (sw : PyRat) :
    ∀ (r : ℕ) (vs : List String) (ps : PrioritySpec),
      (valueLoop t sw r vs ps).section_weights = ps.section_weights := by
  intro r vs
  induction vs generalizing r with
  | nil => intro ps; rfl
  | cons v rest ih => intro ps; simp only [valueLoop]; rw [ih]

theorem valueLoop_total (t : String) (sw : PyRat) :
    ∀ (r : ℕ) (vs : List String) (ps : PrioritySpec),
      (valueLoop t sw r vs ps).total_selected_count = ps.total_selected_count := by
  intro r vs
  induction vs generalizing r with
  | nil => intro ps; rfl
  | cons v rest ih => intro ps; simp only [valueLoop]; rw [ih]

theorem valueLoop_selected_values (t : String) (sw : PyRat) :
    ∀ (r : ℕ) (vs : List String) (ps : PrioritySpec),
      (valueLoop t sw r vs ps).selected_values = ps.selected_values := by
  intro r vs
  induction vs generalizing r with
  | nil => intro ps; rfl
  | cons v rest ih => intro ps; simp only [valueLoop]; rw [ih]

/-- Every successful section iteration either leaves the accumulator
unchanged (inactive section) or appends its key, writes its canonical
weight and strictly increases the selected count. -/
theorem buildStep_cases (N : ℕ) (sel : List (String × List String)) (rk : List JVal)
    (i : ℕ) (k2 : JVal) (acc ps2 : PrioritySpec)
    (hstep : buildStep N sel rk i k2 acc = .ok ps2) :
    ps2 = acc ∨
      (ps2.sections = acc.sections ++ [k2] ∧
        ps2.section_weights = jdSet acc.section_weights k2 (canonical_section_weight N i) ∧
        acc.total_selected_count < ps2.total_selected_count) := by
  unfold buildStep at hstep
  by_cases hns : (pyNormalize k2 == "") = true
  · rw [if_pos hns] at hstep
    injection hstep with h
    exact Or.inl h.symm
  · rw [if_neg hns] at hstep
    cases ha : sdGetH sel k2 with
    | error e =>
        rw [ha] at hstep
        cases hstep
    | ok a =>
        rw [ha] at hstep
        simp only [] at hstep
        cases hr : jMemH rk k2 with
        | error e =>
            rw [hr] at hstep
            cases hstep
        | ok hasRange =>
            rw [hr] at hstep
            simp only [] at hstep
            injection hstep with h
            subst h
            unfold buildStepActive
            by_cases hskip :
                ((dedupNorm (selERChain a (sdGet sel (pyNormalize k2)))).isEmpty &&
                  !hasRange) = true
            · rw [if_pos hskip]
              exact Or.inl rfl
            · rw [if_neg hskip]
              right
              refine ⟨?_, ?_, ?_⟩
              · rw [valueLoop_sections]
              · rw [valueLoop_section_weights]
              · rw [valueLoop_total]
                simp only []
                by_cases he : (dedupNorm (selERChain a (sdGet sel (pyNormalize k2)))).isEmpty
                · rw [if_pos he]
                  omega
                · rw [if_neg he]
                  have hlen : 0 < (dedupNorm (selERChain a (sdGet sel (pyNormalize k2)))).length := by
                    cases hl : dedupNorm (selERChain a (sdGet sel (pyNormalize k2))) with
                    | nil => rw [hl] at he; exact absurd rfl he
                    | cons x xs => simp
                  omega

/-- Keys present in a dict after an insertion: the inserted key or a key
that was already stored. -/
theorem jdSet_mem_keys {α : Type} {m : List (JVal × α)} {k2 : JVal} {w : α} :
    ∀ e ∈ jdSet m k2 w, e.1 = k2 ∨ ∃ e2 ∈ m, e.1 = e2.1 := by
  induction m with
  | nil =>
      intro e he
      rcases List.mem_singleton.mp he with rfl
      exact Or.inl rfl
  | cons e0 t ih =>
      intro e he
      unfold jdSet at he
      by_cases hc : pyEq e0.1 k2 = true
      · rw [if_pos hc] at he
        rcases List.mem_cons.mp he with rfl | hm
        · exact Or.inr ⟨e0, List.mem_cons_self _ _, rfl⟩
        · exact Or.inr ⟨e, List.mem_cons_of_mem _ hm, rfl⟩
      · rw [if_neg hc] at he
        rcases List.mem_cons.mp he with rfl | hm
        · exact Or.inr ⟨e0, List.mem_cons_self _ _, rfl⟩
        · rcases ih e hm with h | ⟨e2, he2, hk⟩
          · exact Or.inl h
          · exact Or.inr ⟨e2, List.mem_cons_of_mem _ he2, hk⟩

/-- Inserting at a key none of whose stored matches touch k leaves the
lookup of k unchanged. -/
theorem jdGet_jdSet_other {α : Type} {k k2 : JVal} {w : α} :
    ∀ {m : List (JVal × α)},
      (∀ e ∈ m, pyEq e.1 k = true → pyEq e.1 k2 = false) → pyEq k2 k = false →
      jdGet (jdSet m k2 w) k = jdGet m k := by
  intro m
  induction m with
  | nil =>
      intro _ hk2
      simp [jdSet, jdGet, hk2]
  | cons e0 t ih =>
      intro hJ hk2
      unfold jdSet
      by_cases hc : pyEq e0.1 k2 = true
      · rw [if_pos hc]
        have h0 : pyEq e0.1 k = false := by
          by_contra hcon
          have := hJ e0 (List.mem_cons_self _ _) (by
            cases hx : pyEq e0.1 k with
            | false => exact absurd hx hcon
            | true => rfl)
          rw [this] at hc
          cases hc
        simp only [jdGet, h0, Bool.false_eq_true, if_false]
      · rw [if_neg hc]
        by_cases h0 : pyEq e0.1 k = true
        · simp only [jdGet, h0, if_true]
        · simp only [jdGet, h0, Bool.false_eq_true, if_false]
          exact ih (fun e he => hJ e (List.mem_cons_of_mem _ he)) hk2

/-- Inserting k into a dict where no stored key matches k makes the
lookup of k find the inserted value. -/
theorem jdGet_jdSet_self {α : Type} {k : JVal} {w : α} (hkk : pyEq k k = true) :
    ∀ {m : List (JVal × α)}, (∀ e ∈ m, pyEq e.1 k = false) →
      jdGet (jdSet m k w) k = some w := by
  intro m
  induction m with
  | nil =>
      intro _
      simp [jdSet, jdGet, hkk]
  | cons e0 t ih =>
      intro hsafe
      unfold jdSet
      have h0 : pyEq e0.1 k = false := hsafe e0 (List.mem_cons_self _ _)
      rw [if_neg (by rw [h0]; exact Bool.false_ne_true)]
      simp only [jdGet, h0, Bool.false_eq_true, if_false]
      exact ih (fun e he => hsafe e (List.mem_cons_of_mem _ he))

/-- A section iteration on a key unrelated to k preserves the lookup of k
in the section weights, the key-shape invariant, and the membership of k
in the built section list. -/
theorem buildStep_not_touching (N : ℕ) (sel : List (String × List String)) (rk : List JVal)
    (i : ℕ) (k k2 : JVal) (acc ps2 : PrioritySpec)
    (hstep : buildStep N sel rk i k2 acc = .ok ps2)
    (hne1 : pyEq k2 k = false) (hne2 : pyEq k k2 = false) (hkk : pyEq k k = true)
    (hJ : ∀ e ∈ acc.section_weights, e.1 = k ∨ pyEq e.1 k = false) :
    jdGet ps2.section_weights k = jdGet acc.section_weights k ∧
      (∀ e ∈ ps2.section_weights, e.1 = k ∨ pyEq e.1 k = false) ∧
      (k ∈ ps2.sections ↔ k ∈ acc.sections) := by
  have hkne : k ≠ k2 := by
    intro he
    subst he
    rw [hkk] at hne1
    cases hne1
  rcases buildStep_cases N sel rk i k2 acc ps2 hstep with rfl | ⟨hsec, hsw, _⟩
  · exact ⟨rfl, hJ, Iff.rfl⟩
  · refine ⟨?_, ?_, ?_⟩
    · rw [hsw]
      apply jdGet_jdSet_other
      · intro e he hek
        rcases hJ e he with h | h
        · rw [h]
          cases hx : pyEq k k2 with
          | false => rfl
          | true => rw [hx] at hne2; cases hne2
        · rw [h] at hek
          cases hek
      · exact hne1
    · intro e he
      rw [hsw] at he
      rcases jdSet_mem_keys e he with h | ⟨e2, he2, hk⟩
      · right
        rw [h]
        exact hne1
      · rw [hk]
        exact hJ e2 he2
    · rw [hsec]
      simp [List.mem_append, hkne]

/-- The same iteration also preserves the all-fail invariant used before
the key of interest has been processed. -/
theorem buildStep_safe (N : ℕ) (sel : List (String × List String)) (rk : List JVal)
    (i : ℕ) (k k2 : JVal) (acc ps2 : PrioritySpec)
    (hstep : buildStep N sel rk i k2 acc = .ok ps2)
    (hne1 : pyEq k2 k = false)
    (hsafe : ∀ e ∈ acc.section_weights, pyEq e.1 k = false) :
    ∀ e ∈ ps2.section_weights, pyEq e.1 k = false := by
  rcases buildStep_cases N sel rk i k2 acc ps2 hstep with rfl | ⟨_, hsw, _⟩
  · exact hsafe
  · intro e he
    rw [hsw] at he
    rcases jdSet_mem_keys e he with h | ⟨e2, he2, hk⟩
    · rw [h]
      exact hne1
    · rw [hk]
      exact hsafe e2 he2

/-- The iteration on the key of interest: inactive leaves everything as
is, active writes the canonical weight of the full-order position. -/
theorem buildStep_hit (N : ℕ) (sel : List (String × List String)) (rk : List JVal)
    (i : ℕ) (k : JVal) (acc ps2 : PrioritySpec)
    (hstep : buildStep N sel rk i k acc = .ok ps2)
    (hkk : pyEq k k = true)
    (hsafe : ∀ e ∈ acc.section_weights, pyEq e.1 k = false)
    (hnot : k ∉ acc.sections) :
    (ps2 = acc) ∨
      (jdGet ps2.section_weights k = some (canonical_section_weight N i) ∧
        (∀ e ∈ ps2.section_weights, e.1 = k ∨ pyEq e.1 k = false)) := by
  rcases buildStep_cases N sel rk i k acc ps2 hstep with rfl | ⟨_, hsw, _⟩
  · exact Or.inl rfl
  · right
    constructor
    · rw [hsw]
      exact jdGet_jdSet_self hkk hsafe
    · intro e he
      rw [hsw] at he
      rcases jdSet_mem_keys e he with h | ⟨e2, he2, hk⟩
      · exact Or.inl h
      · right
        rw [hk]
        exact hsafe e2 he2

/-- Traversal over keys unrelated to k preserves the weight lookup and
the membership of k. -/
theorem buildGo_preserve (N : ℕ) (sel : List (String × List String)) (rk : List JVal)
    (k : JVal) (hkk : pyEq k k = true) :
    ∀ (keys : List JVal) (i : ℕ) (acc ps : PrioritySpec),
      buildGo N sel rk i keys acc = .ok ps →
      (∀ k2 ∈ keys, pyEq k2 k = false ∧ pyEq k k2 = false) →
      (∀ e ∈ acc.section_weights, e.1 = k ∨ pyEq e.1 k = false) →
      (jdGet ps.section_weights k = jdGet acc.section_weights k ∧
        (k ∈ ps.sections ↔ k ∈ acc.sections)) := by
  intro keys
  induction keys with
  | nil =>
      intro i acc ps hgo _ _
      cases hgo
      exact ⟨rfl, Iff.rfl⟩
  | cons k0 rest ih =>
      intro i acc ps hgo hks hJ
      simp only [buildGo] at hgo
      cases hstep : buildStep N sel rk i k0 acc with
      | error e =>
          rw [hstep] at hgo
          cases hgo
      | ok ps1 =>
          rw [hstep] at hgo
          simp only [] at hgo
          have hk0 := hks k0 (List.mem_cons_self _ _)
          have hp := buildStep_not_touching N sel rk i k k0 acc ps1 hstep hk0.1 hk0.2 hkk hJ
          have hr := ih (i + 1) ps1 ps hgo
            (fun k2 hk2 => hks k2 (List.mem_cons_of_mem _ hk2)) hp.2.1
          exact ⟨hr.1.trans hp.1, hr.2.trans hp.2.2⟩

theorem get?_of_mem {l : List JVal} {a : JVal} (h : a ∈ l) : ∃ j, l.get? j = some a := by
  induction l with
  | nil => cases h
  | cons x t ih =>
      rcases List.mem_cons.mp h with rfl | hm
      · exact ⟨0, rfl⟩
      · obtain ⟨j, hj⟩ := ih hm
        exact ⟨j + 1, by simpa using hj⟩

/-- The section loop writes, for the key at position p of the remaining
keys (no other position holding a matching key), the canonical weight of
its absolute position, provided the key ends up active. -/
theorem buildGo_weight_main (N : ℕ) (sel : List (String × List String)) (rk : List JVal)
    (k : JVal) (hkk : pyEq k k = true) :
    ∀ (keys : List JVal) (p i : ℕ) (acc ps : PrioritySpec),
      buildGo N sel rk i keys acc = .ok ps →
      keys.get? p = some k →
      (∀ j k2, j ≠ p → keys.get? j = some k2 → pyEq k2 k = false ∧ pyEq k k2 = false) →
      (∀ e ∈ acc.section_weights, pyEq e.1 k = false) →
      k ∉ acc.sections →
      (k ∈ ps.sections → jdGet ps.section_weights k = some (canonical_section_weight N (i + p))) := by
  intro keys
  induction keys with
  | nil =>
      intro p i acc ps _ hget
      simp [List.get?] at hget
  | cons k0 rest ih =>
      intro p i acc ps hgo hget huniq hsafe hnot
      simp only [buildGo] at hgo
      cases hstep : buildStep N sel rk i k0 acc with
      | error e =>
          rw [hstep] at hgo
          cases hgo
      | ok ps1 =>
          rw [hstep] at hgo
          simp only [] at hgo
          cases p with
          | zero =>
              have hk0 : k0 = k := by simpa using hget
              subst hk0
              have hrests : ∀ k2 ∈ rest, pyEq k2 k0 = false ∧ pyEq k0 k2 = false := by
                intro k2 hk2
                obtain ⟨j, hj⟩ := get?_of_mem hk2
                exact huniq (j + 1) k2 (by omega) (by simpa using hj)
              rcases buildStep_hit N sel rk i k0 acc ps1 hstep hkk hsafe hnot with rfl | ⟨hw, hJ⟩
              · intro hmem
                have hr := buildGo_preserve N sel rk k0 hkk rest (i + 1) ps1 ps hgo hrests
                  (fun e he => Or.inr (hsafe e he))
                exact absurd (hr.2.mp hmem) hnot
              · intro _
                have hr := buildGo_preserve N sel rk k0 hkk rest (i + 1) ps1 ps hgo hrests hJ
                rw [hr.1, hw]
                norm_num
          | succ p2 =>
              have hk0 := huniq 0 k0 (by omega) (by simp)
              have hget2 : rest.get? p2 = some k := by simpa using hget
              have huniq2 : ∀ j k2, j ≠ p2 → rest.get? j = some k2 →
                  pyEq k2 k = false ∧ pyEq k k2 = false := by
                intro j k2 hj hgj
                exact huniq (j + 1) k2 (by omega) (by simpa using hgj)
              have hsafe1 := buildStep_safe N sel rk i k k0 acc ps1 hstep hk0.1 hsafe
              have hnt := buildStep_not_touching N sel rk i k k0 acc ps1 hstep hk0.1 hk0.2 hkk
                (fun e he => Or.inr (hsafe e he))
              have hnot1 : k ∉ ps1.sections := fun hmem => hnot (hnt.2.2.mp hmem)
              intro hmem
              have h2 := ih p2 (i + 1) ps1 ps hgo hget2 huniq2 hsafe1 hnot1 hmem
              have hidx : (i + 1) + p2 = i + (p2 + 1) := by omega
              rw [hidx] at h2
              exact h2

/-- C7: every active section takes its weight from its zero-based
position in the full section order, inactive earlier sections included:
when the key k sits at position i of the order (and no other position
holds a key Python-equal to it), its stored section weight is the
canonical weight of (length, i), which by definition is the dominance
base five to the power max(0, length - i - 1); the weight therefore does
not depend on the selections of any other section. -/
theorem section_weight_from_full_order
    (section_order : List JVal) (selected_order : List (String × List String))
    (range_keys : List JVal) (i : ℕ) (k : JVal) (ps : PrioritySpec)
    (hcall : _build_priority_spec section_order selected_order range_keys = .ok ps)
    (hpos : section_order.get? i = some k)
    (huniq : ∀ j k2, j ≠ i → section_order.get? j = some k2 →
      pyEq k2 k = false ∧ pyEq k k2 = false)
    (hkk : pyEq k k = true)
    (hact : k ∈ ps.sections) :
    jdGet ps.section_weights k = some (canonical_section_weight section_order.length i) ∧
      canonical_section_weight section_order.length i =
        PyRat.ofInt (SECTION_DOMINANCE_BASE ^ (section_order.length - i - 1)) := by
  refine ⟨?_, rfl⟩
  have hmain := buildGo_weight_main section_order.length selected_order range_keys k hkk
    section_order i 0 emptySpec ps hcall hpos huniq
    (by intro e he; cases he) (by intro h; cases h)
  simpa using hmain hact

/-- The spec built by the C7 witness fixture: order [a, b], selections
only under b, so a is inactive but b still gets the weight of position
one in the full two-element order. -/
def orderWitnessSpec : PrioritySpec :=
  ⟨[.str "b"], [(.str "b", ["x"])], [("b:x", ⟨1, 1⟩)], [(.str "b", ⟨1, 1⟩)],
    ["b:x"], ["b:x"], 1⟩

/-- C7 witness: with the full order [a, b] where a has no selections, the
active section b carries the canonical weight of position one of a
two-section order (namely five to the zero), not a compressed position. -/
theorem section_weight_from_full_order_witness :
    _build_priority_spec [.str "a", .str "b"] [("b", ["x"])] [] = .ok orderWitnessSpec ∧
      jdGet orderWitnessSpec.section_weights (.str "b") =
        some (canonical_section_weight 2 1) := by
  have hcall : _build_priority_spec [.str "a", .str "b"] [("b", ["x"])] [] =
      .ok orderWitnessSpec := by rfl
  refine ⟨hcall, ?_⟩
  have huniq : ∀ j k2, j ≠ 1 →
      ([JVal.str "a", JVal.str "b"] : List JVal).get? j = some k2 →
      pyEq k2 (.str "b") = false ∧ pyEq (.str "b") k2 = false := by
    intro j k2 hj hget
    match j with
    | 0 =>
        have hk : JVal.str "a" = k2 := by simpa using hget
        subst hk
        exact ⟨by rfl, by rfl⟩
    | 1 => exact absurd rfl hj
    | (j + 2) => simp [List.get?] at hget
  exact (section_weight_from_full_order [.str "a", .str "b"] [("b", ["x"])] [] 1 (.str "b")
    orderWitnessSpec hcall (by rfl) huniq (by rfl) (List.mem_singleton.mpr rfl)).1

/-! Structure of the scored output (C3, C9). -/

theorem lookupField_sdSet (m : List (String × JVal)) (k : String) (v : JVal) :
    lookupField (sdSet m k v) k = some v := by
  induction m with
  | nil => simp [sdSet, lookupField]
  | cons e t ih =>
      obtain ⟨k0, v0⟩ := e
      unfold sdSet
      by_cases hc : (k0 == k) = true
      · rw [if_pos hc]
        unfold lookupField
        rw [if_pos hc]
      · rw [if_neg hc]
        unfold lookupField
        rw [if_neg hc]
        exact ih

theorem objGet_sdSet (m : List (String × JVal)) (k : String) (v : JVal) :
    objGet (sdSet m k v) k = v := by
  unfold objGet
  rw [lookupField_sdSet]

/-- The derived score the sort key would read back from an annotated item
copy (total, with a zero default on shapes the scorer never produces). -/
def annScore (o : List (String × JVal)) : PyRat :=
  match objGet o "_mcda" with
  | .obj a =>
      match objGet a "derived_score" with
      | .float q => q
      | _ => ⟨0, 1⟩
  | _ => ⟨0, 1⟩

/-- The output order of the scorer, read off the annotations: descending
derived score, ties broken by strictly ascending original index. -/
def outOrdered (a b : List (String × JVal)) : Prop :=
  (annScore b).lt (annScore a) ∨
    ((annScore a).beq (annScore b) = true ∧ annIndex a < annIndex b)

theorem annScore_sdSet (item : List (String × JVal)) (sc : PyRat) (tm hm rm tsc i : ℕ) :
    annScore (sdSet item "_mcda" (mcdaObj sc tm hm rm tsc i)) = sc := by
  unfold annScore
  rw [objGet_sdSet]
  rfl

theorem annIndex_sdSet (item : List (String × JVal)) (sc : PyRat) (tm hm rm tsc i : ℕ) :
    annIndex (sdSet item "_mcda" (mcdaObj sc tm hm rm tsc i)) = (i : ℤ) := by
  unfold annIndex
  rw [objGet_sdSet]
  rfl

/-- Every successful per-item scoring returns the shallow copy of the item
with exactly the _mcda annotation of its own tuple fields assigned. -/
theorem scoreOne_obj (ctx : ScoreCtx) (i : ℕ) (item : List (String × JVal))
    (e : ScoredEntry) (h : scoreOne ctx i item = .ok e) :
    e.obj = sdSet item "_mcda"
      (mcdaObj e.score e.total_matches e.high_priority_matches e.range_matches
        ctx.total_selected_count i) := by
  unfold scoreOne at h
  cases h1 : collectTokens item ctx.prioritySections [] with
  | error er =>
      rw [h1] at h
      cases h
  | ok toks0 =>
      rw [h1] at h
      simp only [] at h
      cases h2 : scoreTokens ctx item toks0 with
      | error er =>
          rw [h2] at h
          cases h
      | ok toks =>
          rw [h2] at h
          simp only [] at h
          unfold scoreBody at h
          split at h
          · cases h
          · injection h with he
            subst he
            rfl

theorem scoreItemsGo_spec (ctx : ScoreCtx) :
    ∀ (l : List (List (String × JVal))) (i : ℕ) (res : List ScoredEntry),
      scoreItemsGo ctx i l = .ok res →
      res.length = l.length ∧
      ∀ j (hj : j < res.length) (hl : j < l.length),
        scoreOne ctx (i + j) (l.get ⟨j, hl⟩) = .ok (res.get ⟨j, hj⟩) := by
  intro l
  induction l with
  | nil =>
      intro i res h
      cases h
      refine ⟨rfl, ?_⟩
      intro j hj hl
      exact absurd hl (Nat.not_lt_zero j)
  | cons it rest ih =>
      intro i res h
      unfold scoreItemsGo at h
      cases h1 : scoreOne ctx i it with
      | error er =>
          rw [h1] at h
          cases h
      | ok en =>
          rw [h1] at h
          simp only [] at h
          cases h2 : scoreItemsGo ctx (i + 1) rest with
          | error er =>
              rw [h2] at h
              cases h
          | ok es =>
              rw [h2] at h
              simp only [] at h
              injection h with he
              subst he
              obtain ⟨hlen, hget⟩ := ih (i + 1) es h2
              refine ⟨by simp [hlen], ?_⟩
              intro j hj hl
              cases j with
              | zero => simpa using h1
              | succ j2 =>
                  have hj2 : j2 < es.length := by simpa using hj
                  have hl2 : j2 < rest.length := by simpa using hl
                  have hr := hget j2 hj2 hl2
                  have hidx : (i + 1) + j2 = i + (j2 + 1) := by omega
                  rw [hidx] at hr
                  simpa using hr

theorem scoreItemsGo_mem (ctx : ScoreCtx) :
    ∀ (l : List (List (String × JVal))) (i : ℕ) (res : List ScoredEntry),
      scoreItemsGo ctx i l = .ok res →
      ∀ e ∈ res, ∃ j item, scoreOne ctx j item = .ok e := by
  intro l
  induction l with
  | nil =>
      intro i res h e he
      cases h
      cases he
  | cons it rest ih =>
      intro i res h e he
      unfold scoreItemsGo at h
      cases h1 : scoreOne ctx i it with
      | error er =>
          rw [h1] at h
          cases h
      | ok en =>
          rw [h1] at h
          simp only [] at h
          cases h2 : scoreItemsGo ctx (i + 1) rest with
          | error er =>
              rw [h2] at h
              cases h
          | ok es =>
              rw [h2] at h
              simp only [] at h
              injection h with hres
              subst hres
              rcases List.mem_cons.mp he with rfl | hm
              · exact ⟨i, it, h1⟩
              · exact ih (i + 1) es h2 e hm

/-- The annotated item copies of the scorer line up with the input items:
each output object is the corresponding input item with one _mcda key
assigned, the annotation carrying the item's own index. -/
theorem scoreItemsGo_zip (ctx : ScoreCtx) :
    ∀ (l : List (List (String × JVal))) (i : ℕ) (res : List ScoredEntry),
      scoreItemsGo ctx i l = .ok res →
      ∃ anns : List JVal, anns.length = l.length ∧
        res.map (fun e => e.obj) =
          List.zipWith (fun item a => sdSet item "_mcda" a) l anns ∧
        ∀ j (hj : j < anns.length), ∃ sc tm hm rm,
          anns.get ⟨j, hj⟩ = mcdaObj sc tm hm rm ctx.total_selected_count (i + j) := by
  intro l
  induction l with
  | nil =>
      intro i res h
      cases h
      refine ⟨[], rfl, rfl, ?_⟩
      intro j hj
      exact absurd hj (Nat.not_lt_zero j)
  | cons it rest ih =>
      intro i res h
      unfold scoreItemsGo at h
      cases h1 : scoreOne ctx i it with
      | error er =>
          rw [h1] at h
          cases h
      | ok en =>
          rw [h1] at h
          simp only [] at h
          cases h2 : scoreItemsGo ctx (i + 1) rest with
          | error er =>
              rw [h2] at h
              cases h
          | ok es =>
              rw [h2] at h
              simp only [] at h
              injection h with hres
              subst hres
              obtain ⟨anns, hlen, hmap, hann⟩ := ih (i + 1) es h2
              refine ⟨mcdaObj en.score en.total_matches en.high_priority_matches
                  en.range_matches ctx.total_selected_count i :: anns, by simp [hlen], ?_, ?_⟩
              · simp only [List.map_cons, List.zipWith_cons_cons]
                rw [hmap]
                congr 1
                exact scoreOne_obj ctx i it en h1
              · intro j hj
                cases j with
                | zero =>
                    refine ⟨en.score, en.total_matches, en.high_priority_matches,
                      en.range_matches, ?_⟩
                    simp
                | succ j2 =>
                    have hj2 : j2 < anns.length := by simpa using hj
                    obtain ⟨sc, tm, hm, rm, hv⟩ := hann j2 hj2
                    refine ⟨sc, tm, hm, rm, ?_⟩
                    have hidx : (i + 1) + j2 = i + (j2 + 1) := by omega
                    rw [hidx] at hv
                    simpa using hv

instance : IsTotal ScoredEntry scoreRel := ⟨by
  intro a b
  unfold scoreRel
  rcases lt_trichotomy a.score.toRat b.score.toRat with h | h | h
  · exact Or.inr (Or.inl (PyRat.toRat_lt_iff.mpr h))
  · rcases le_total (annIndex a.obj) (annIndex b.obj) with hi | hi
    · exact Or.inl (Or.inr ⟨PyRat.beq_iff_toRat_eq.mpr h, hi⟩)
    · exact Or.inr (Or.inr ⟨PyRat.beq_iff_toRat_eq.mpr h.symm, hi⟩)
  · exact Or.inl (Or.inl (PyRat.toRat_lt_iff.mpr h))⟩

instance : IsTrans ScoredEntry scoreRel := ⟨by
  intro a b c hab hbc
  unfold scoreRel at *
  rcases hab with h1 | ⟨e1, i1⟩ <;> rcases hbc with h2 | ⟨e2, i2⟩
  · exact Or.inl (PyRat.toRat_lt_iff.mpr
      (lt_trans (PyRat.toRat_lt_iff.mp h2) (PyRat.toRat_lt_iff.mp h1)))
  · refine Or.inl (PyRat.toRat_lt_iff.mpr ?_)
    rw [← PyRat.beq_iff_toRat_eq.mp e2]
    exact PyRat.toRat_lt_iff.mp h1
  · refine Or.inl (PyRat.toRat_lt_iff.mpr ?_)
    rw [PyRat.beq_iff_toRat_eq.mp e1]
    exact PyRat.toRat_lt_iff.mp h2
  · exact Or.inr ⟨PyRat.beq_iff_toRat_eq.mpr
      ((PyRat.beq_iff_toRat_eq.mp e1).trans (PyRat.beq_iff_toRat_eq.mp e2)),
      le_trans i1 i2⟩⟩

theorem buildGo_total_mono (N : ℕ) (sel : List (String × List String)) (rk : List JVal) :
    ∀ (keys : List JVal) (i : ℕ) (acc ps : PrioritySpec),
      buildGo N sel rk i keys acc = .ok ps →
      acc.total_selected_count ≤ ps.total_selected_count := by
  intro keys
  induction keys with
  | nil =>
      intro i acc ps h
      cases h
      exact le_refl _
  | cons k0 rest ih =>
      intro i acc ps h
      simp only [buildGo] at h
      cases hstep : buildStep N sel rk i k0 acc with
      | error e =>
          rw [hstep] at h
          cases h
      | ok ps1 =>
          rw [hstep] at h
          simp only [] at h
          rcases buildStep_cases N sel rk i k0 acc ps1 hstep with rfl | ⟨_, _, hlt⟩
          · exact ih (i + 1) _ ps h
          · exact le_trans (le_of_lt hlt) (ih (i + 1) ps1 ps h)

theorem buildGo_total_eq (N : ℕ) (sel : List (String × List String)) (rk : List JVal) :
    ∀ (keys : List JVal) (i : ℕ) (acc ps : PrioritySpec),
      buildGo N sel rk i keys acc = .ok ps →
      ps.total_selected_count = acc.total_selected_count → ps = acc := by
  intro keys
  induction keys with
  | nil =>
      intro i acc ps h _
      cases h
      rfl
  | cons k0 rest ih =>
      intro i acc ps h heq
      simp only [buildGo] at h
      cases hstep : buildStep N sel rk i k0 acc with
      | error e =>
          rw [hstep] at h
          cases h
      | ok ps1 =>
          rw [hstep] at h
          simp only [] at h
          rcases buildStep_cases N sel rk i k0 acc ps1 hstep with rfl | ⟨_, _, hlt⟩
          · exact ih (i + 1) _ ps h heq
          · exfalso
            have := buildGo_total_mono N sel rk rest (i + 1) ps1 ps h
            omega

/-- A priority spec with zero selected count is the empty spec: every
active section adds at least one to the count. -/
theorem build_total_zero (so : List JVal) (sel : List (String × List String))
    (rk : List JVal) (ps : PrioritySpec)
    (h : _build_priority_spec so sel rk = .ok ps)
    (h0 : ps.total_selected_count = 0) : ps = emptySpec := by
  unfold _build_priority_spec at h
  exact buildGo_total_eq so.length sel rk so 0 emptySpec ps h h0

theorem tokenStats_selected_nil (hp : List String) (tw : List (String × PyRat)) :
    ∀ (toks : List String) (acc : ℕ × ℕ × PyRat), tokenStats [] hp tw toks acc = acc := by
  intro toks
  induction toks with
  | nil => intro acc; rfl
  | cons t rest ih =>
      intro acc
      obtain ⟨tm, hm, sc⟩ := acc
      unfold tokenStats
      simp only [List.contains, List.elem_nil, Bool.false_eq_true, if_false]
      exact ih _

theorem pyRat_toRat_zero_iff {x : PyRat} : x.toRat = 0 ↔ x.num = 0 := by
  unfold PyRat.toRat
  rw [div_eq_zero_iff]
  constructor
  · rintro (h | h)
    · exact_mod_cast h
    · exact absurd h (ne_of_gt (PyRat.den_cast_pos x))
  · intro h
    left
    exact_mod_cast h

theorem rangeStep_score_empty_sw (fm : List (JVal × JVal)) (item : List (String × JVal))
    (acc acc2 : RangeAcc) (sel : JVal × (Option PyRat × Option PyRat))
    (h : rangeStep fm [] item acc sel = .ok acc2) :
    acc2.score.toRat = acc.score.toRat := by
  unfold rangeStep at h
  repeat' split at h
  all_goals first
    | (injection h with he
       subst he
       rfl)
    | (injection h with he
       subst he
       show (acc.score.add
           ((jdGet ([] : List (JVal × PyRat)) sel.1).getD (PyRat.ofInt 0))).toRat =
         acc.score.toRat
       rw [PyRat.toRat_add]
       simp [jdGet, PyRat.toRat_ofInt])
    | cases h

theorem rangeLoop_score_empty_sw (fm : List (JVal × JVal)) (item : List (String × JVal)) :
    ∀ (sels : List (JVal × (Option PyRat × Option PyRat))) (acc acc2 : RangeAcc),
      rangeLoop fm [] item sels acc = .ok acc2 →
      acc2.score.toRat = acc.score.toRat := by
  intro sels
  induction sels with
  | nil =>
      intro acc acc2 h
      cases h
      rfl
  | cons sel rest ih =>
      intro acc acc2 h
      unfold rangeLoop at h
      cases h1 : rangeStep fm [] item acc sel with
      | error e =>
          rw [h1] at h
          cases h
      | ok acc1 =>
          rw [h1] at h
          simp only [] at h
          rw [ih acc1 acc2 h]
          exact rangeStep_score_empty_sw fm item acc acc1 sel h1

/-- With no selected tokens and no section weights, every item's derived
score is zero. -/
theorem scoreOne_score_zero (ctx : ScoreCtx) (i : ℕ) (item : List (String × JVal))
    (e : ScoredEntry)
    (hsel : ctx.selected_tokens = []) (hsw : ctx.section_weights = [])
    (h : scoreOne ctx i item = .ok e) : e.score.num = 0 := by
  unfold scoreOne at h
  cases h1 : collectTokens item ctx.prioritySections [] with
  | error er =>
      rw [h1] at h
      cases h
  | ok toks0 =>
      rw [h1] at h
      simp only [] at h
      cases h2 : scoreTokens ctx item toks0 with
      | error er =>
          rw [h2] at h
          cases h
      | ok toks =>
          rw [h2] at h
          simp only [] at h
          rw [hsel, tokenStats_selected_nil] at h
          unfold scoreBody at h
          rw [hsw] at h
          cases h3 : rangeLoop ctx.filter_map [] item ctx.range_selections
              ⟨(0, 0, PyRat.ofInt 0).1, (0, 0, PyRat.ofInt 0).2.1, 0,
                (0, 0, PyRat.ofInt 0).2.2⟩ with
          | error er =>
              rw [h3] at h
              cases h
          | ok racc =>
              rw [h3] at h
              simp only [] at h
              injection h with he
              subst he
              show racc.score.num = 0
              rw [← pyRat_toRat_zero_iff]
              rw [rangeLoop_score_empty_sw ctx.filter_map item _ _ _ h3]
              show (PyRat.ofInt 0).toRat = 0
              rw [PyRat.toRat_ofInt]
              simp

theorem scoreItemsGo_annIndex (ctx : ScoreCtx) (l : List (List (String × JVal)))
    (i : ℕ) (res : List ScoredEntry) (h : scoreItemsGo ctx i l = .ok res)
    (j : ℕ) (hj : j < res.length) :
    annIndex (res.get ⟨j, hj⟩).obj = ((i + j : ℕ) : ℤ) := by
  obtain ⟨hlen, hget⟩ := scoreItemsGo_spec ctx l i res h
  have hl : j < l.length := hlen ▸ hj
  have hone := hget j hj hl
  rw [scoreOne_obj ctx (i + j) _ _ hone]
  exact annIndex_sdSet _ _ _ _ _ _ _

/-- Inversion of a successful score_listings run: the priority spec, the
per-item scoring context built from it, the scored entries, the returned
count and the final list shape. -/
theorem score_listings_inversion (L : List (List (String × JVal)))
    (cfg fl : List (String × JVal)) (so : List (String × List String))
    (sec : Option (List String)) (out : List (List (String × JVal))) (n : ℕ)
    (h : score_listings L cfg fl so sec = .ok (out, n)) :
    ∃ (ctx : ScoreCtx) (scored : List ScoredEntry) (ps : PrioritySpec)
      (eso rk : List JVal),
      _build_priority_spec eso so rk = .ok ps ∧
      ctx.selected_tokens = ps.selected_tokens ∧
      ctx.section_weights = ps.section_weights ∧
      ctx.total_selected_count = ps.total_selected_count ∧
      scoreItemsGo ctx 0 L = .ok scored ∧
      n = ps.total_selected_count ∧
      out = (if 0 < ps.total_selected_count then List.insertionSort scoreRel scored
             else scored).map (fun e => e.obj) := by
  unfold score_listings at h
  cases h1 : _build_filter_map cfg with
  | error e =>
      rw [h1] at h
      cases h
  | ok filter_map =>
  rw [h1] at h
  simp only [] at h
  cases h2 : (match sec with
     | some l => if l.isEmpty then _default_section_order cfg else Except.ok (l.map JVal.str)
     | none => _default_section_order cfg) with
  | error e =>
      rw [h2] at h
      cases h
  | ok eso =>
  rw [h2] at h
  simp only [] at h
  cases h3 : _extract_range_filters fl filter_map with
  | error e =>
      rw [h3] at h
      cases h
  | ok range_selections =>
  rw [h3] at h
  simp only [] at h
  cases h4 : _build_priority_spec eso so (range_selections.map (fun e => e.1)) with
  | error e =>
      rw [h4] at h
      cases h
  | ok ps =>
  rw [h4] at h
  simp only [] at h
  cases h5 : sectionFlags filter_map ps.sections with
  | error e =>
      rw [h5] at h
      cases h
  | ok flags =>
  rw [h5] at h
  simp only [] at h
  cases h6 : scoreItemsGo (mkCtx filter_map range_selections flags ps) 0 L with
  | error e =>
      rw [h6] at h
      cases h
  | ok scored =>
  rw [h6] at h
  simp only [] at h
  injection h with hpair
  refine ⟨mkCtx filter_map range_selections flags ps, scored, ps, eso,
    range_selections.map (fun e => e.1), h4, rfl, rfl, rfl, h6, ?_, ?_⟩
  · exact (congrArg Prod.snd hpair).symm
  · exact (congrArg Prod.fst hpair).symm

/-- C3 — When totalSelectedCount > 0 the returned list is ordered by
strictly descending derived_score with ties broken by strictly ascending
original index (so equal scores keep the original relative order); when
totalSelectedCount = 0 the returned list is the input list in order, each
item shallow-copied with an _mcda annotation whose derived_score is
zero. -/
theorem score_listings_sorted_or_input_order
    (L : List (List (String × JVal))) (cfg fl : List (String × JVal))
    (so : List (String × List String)) (sec : Option (List String))
    (out : List (List (String × JVal))) (n : ℕ)
    (h : score_listings L cfg fl so sec = .ok (out, n)) :
    (0 < n → out.Pairwise outOrdered) ∧
    (n = 0 → out.length = L.length ∧
      ∀ j (hj : j < out.length) (hl : j < L.length),
        ∃ sc tm hm rm, out.get ⟨j, hj⟩ =
          sdSet (L.get ⟨j, hl⟩) "_mcda" (mcdaObj sc tm hm rm n j) ∧ sc.num = 0) := by
  obtain ⟨ctx, scored, ps, eso, rk, hps, hsel, hsw, htot, hgo, hn, hout⟩ :=
    score_listings_inversion L cfg fl so sec out n h
  constructor
  · intro hpos
    have hpos2 : 0 < ps.total_selected_count := hn ▸ hpos
    rw [hout, if_pos hpos2]
    rw [List.pairwise_map]
    have hsorted : List.Pairwise scoreRel (List.insertionSort scoreRel scored) :=
      List.sorted_insertionSort scoreRel scored
    have hperm : (List.insertionSort scoreRel scored).Perm scored :=
      List.perm_insertionSort scoreRel scored
    have hidx : List.Pairwise
        (fun a b : ScoredEntry => annIndex a.obj ≠ annIndex b.obj) scored := by
      rw [List.pairwise_iff_get]
      intro i j hij
      rw [scoreItemsGo_annIndex ctx L 0 scored hgo i i.isLt,
          scoreItemsGo_annIndex ctx L 0 scored hgo j j.isLt]
      intro hc
      have hij2 : (i : ℕ) < (j : ℕ) := hij
      have hcc : (i : ℕ) = (j : ℕ) := by
        have := hc
        simp only [Nat.zero_add] at this
        exact_mod_cast this
      omega
    have hidxS := (List.Perm.pairwise_iff
      (fun hab => Ne.symm hab) hperm).mpr hidx
    have hcomb := hsorted.and hidxS
    refine List.Pairwise.imp_of_mem ?_ hcomb
    intro a b ha hb hr
    obtain ⟨hrel, hne⟩ := hr
    have ha2 : a ∈ scored := hperm.mem_iff.mp ha
    have hb2 : b ∈ scored := hperm.mem_iff.mp hb
    obtain ⟨ja, ia, hsa⟩ := scoreItemsGo_mem ctx L 0 scored hgo a ha2
    obtain ⟨jb, ib, hsb⟩ := scoreItemsGo_mem ctx L 0 scored hgo b hb2
    have hsca : annScore a.obj = a.score := by
      rw [scoreOne_obj ctx ja ia a hsa]
      exact annScore_sdSet _ _ _ _ _ _ _
    have hscb : annScore b.obj = b.score := by
      rw [scoreOne_obj ctx jb ib b hsb]
      exact annScore_sdSet _ _ _ _ _ _ _
    unfold outOrdered
    rw [hsca, hscb]
    rcases hrel with hlt | ⟨hbeq, hle⟩
    · exact Or.inl hlt
    · exact Or.inr ⟨hbeq, lt_of_le_of_ne hle hne⟩
  · intro h0
    have hps0 : ps.total_selected_count = 0 := by omega
    have hempty := build_total_zero eso so rk ps hps hps0
    have hnot : ¬ 0 < ps.total_selected_count := by omega
    rw [hout, if_neg hnot]
    obtain ⟨hlen, hget⟩ := scoreItemsGo_spec ctx L 0 scored hgo
    constructor
    · simp [hlen]
    · intro j hj hl
      have hj2 : j < scored.length := by simpa using hj
      have hone := hget j hj2 (by rwa [hlen] at hj2)
      have hobj := scoreOne_obj ctx (0 + j) _ _ hone
      have hzero := scoreOne_score_zero ctx (0 + j) _ _
        (by rw [hsel, hempty]; rfl) (by rw [hsw, hempty]; rfl) hone
      refine ⟨(scored.get ⟨j, hj2⟩).score, (scored.get ⟨j, hj2⟩).total_matches,
        (scored.get ⟨j, hj2⟩).high_priority_matches,
        (scored.get ⟨j, hj2⟩).range_matches, ?_, hzero⟩
      rw [List.get_map, hobj, htot, ← hn, Nat.zero_add]

/-- C9 — Every returned element is a shallow copy of its source item with
only the _mcda annotation added: the output is a permutation of the input
items each extended (dict(item) plus one key) with an _mcda annotation
carrying its own original index; the embedding is pure, so no input is
mutated. -/
theorem score_listings_shallow_copy_permutation
    (L : List (List (String × JVal))) (cfg fl : List (String × JVal))
    (so : List (String × List String)) (sec : Option (List String))
    (out : List (List (String × JVal))) (n : ℕ)
    (h : score_listings L cfg fl so sec = .ok (out, n)) :
    ∃ anns : List JVal, anns.length = L.length ∧
      out.Perm (List.zipWith (fun item a => sdSet item "_mcda" a) L anns) ∧
      ∀ j (hj : j < anns.length), ∃ sc tm hm rm,
        anns.get ⟨j, hj⟩ = mcdaObj sc tm hm rm n j := by
  obtain ⟨ctx, scored, ps, eso, rk, hps, hsel, hsw, htot, hgo, hn, hout⟩ :=
    score_listings_inversion L cfg fl so sec out n h
  obtain ⟨anns, hlen, hmap, hann⟩ := scoreItemsGo_zip ctx L 0 scored hgo
  refine ⟨anns, hlen, ?_, ?_⟩
  · rw [hout, ← hmap]
    by_cases hpos : 0 < ps.total_selected_count
    · rw [if_pos hpos]
      exact (List.perm_insertionSort scoreRel scored).map _
    · rw [if_neg hpos]
  · intro j hj
    obtain ⟨sc, tm, hm, rm, hv⟩ := hann j hj
    refine ⟨sc, tm, hm, rm, ?_⟩
    rw [hv, htot, ← hn, Nat.zero_add]

/-- Witness fixture: two items over one categorical section with two
selected values, so the Honda item (rank 0, weight 1.0) outranks the
Toyota item (rank 1, weight 0.65) and the sort branch runs. -/
def witL : List (List (String × JVal)) :=
  [[("id", .int 1), ("make", .str "Toyota")], [("id", .int 2), ("make", .str "Honda")]]

def witCfg : List (String × JVal) :=
  [("filters", .arr [.obj [("key", .str "make"), ("type", .str "categorical"),
      ("path", .str "make")]])]

def witSel : List (String × List String) := [("make", ["Honda", "Toyota"])]

/-- The output of score_listings on the witness fixture, computed by the
kernel in the witnesses below: Honda first (score 1.0, original index 1),
Toyota second (score 0.65, original index 0). -/
def witOut : List (List (String × JVal)) :=
  [[("id", .int 2), ("make", .str "Honda"), ("_mcda", mcdaObj ⟨1, 1⟩ 1 1 0 2 1)],
   [("id", .int 1), ("make", .str "Toyota"), ("_mcda", mcdaObj ⟨13, 20⟩ 1 1 0 2 0)]]

theorem score_listings_sorted_or_input_order_witness :
    witOut.Pairwise outOrdered :=
  (score_listings_sorted_or_input_order witL witCfg [] witSel (some ["make"])
      witOut 2 rfl).1 (by norm_num)

theorem score_listings_shallow_copy_permutation_witness :
    ∃ anns : List JVal, anns.length = witL.length ∧
      witOut.Perm (List.zipWith (fun item a => sdSet item "_mcda" a) witL anns) ∧
      ∀ j (hj : j < anns.length), ∃ sc tm hm rm,
        anns.get ⟨j, hj⟩ = mcdaObj sc tm hm rm 2 j :=
  score_listings_shallow_copy_permutation witL witCfg [] witSel (some ["make"])
    witOut 2 rfl
